import Mathlib

/-!
Verification development for the coinche double-dummy solver core
(`core/cards.hpp`, `search/minimax.hpp`, `search/minimax.cpp`, `bindings.cpp`).

Cards are ids `0..31` encoded as `suit * 8 + rank`; hands are 32-bit masks;
tricks are lists of `(player, card)` pairs.  The searcher is an alpha-beta
minimax with a direct-mapped transposition table keyed by a 64-bit Zobrist
digest whose keys come from `std::mt19937_64` seeded with 42.
-/

namespace Cointree

/-! ### Card encoding (`core/cards.hpp`) -/

/-- Trump strength by rank (7,8,9,10,J,Q,K,A), `Card::strength`. -/
def STRENGTH_TRUMP : List Int := [50, 60, 150, 90, 200, 70, 80, 100]

/-- Non-trump strength by rank, `Card::strength`. -/
def STRENGTH_NO_TRUMP : List Int := [0, 0, 10, 100, 20, 30, 40, 110]

/-- Trump point values by rank, `Card::points`. -/
def POINTS_TRUMP : List Int := [0, 0, 14, 10, 20, 3, 4, 11]

/-- Non-trump point values by rank, `Card::points`. -/
def POINTS_NO_TRUMP : List Int := [0, 0, 0, 10, 2, 3, 4, 11]

/-- `Card::suit`: the suit of card id `c` is `c / 8`
(0 = Hearts, 1 = Diamonds, 2 = Clubs, 3 = Spades). -/
def cardSuit (c : Nat) : Nat := c / 8

/-- `Card::rank`: the rank of card id `c` is `c % 8`. -/
def cardRank (c : Nat) : Nat := c % 8

/-- `Card::strength(c, trump)`: strength used for trick comparison. -/
def strength (c trump : Nat) : Int :=
  if c / 8 = trump then STRENGTH_TRUMP.getD (c % 8) 0
  else STRENGTH_NO_TRUMP.getD (c % 8) 0

/-- `Card::points(c, trump)`: point value used for scoring. -/
def points (c trump : Nat) : Int :=
  if c / 8 = trump then POINTS_TRUMP.getD (c % 8) 0
  else POINTS_NO_TRUMP.getD (c % 8) 0

/-- `CardSet.add`: set bit `c` of the mask. -/
def csAdd (m c : Nat) : Nat := m ||| (1 <<< c)

/-- `CardSet.remove`: clear bit `c` of the mask (`mask &= ~(1U << id)` on a
32-bit word; the complement is taken within 32 bits). -/
def csRemove (m c : Nat) : Nat := m &&& ((2 ^ 32 - 1) ^^^ (1 <<< c))

/-- `CardSet.contains`: membership test on the mask. -/
def csContains (m c : Nat) : Bool := m.testBit c

/-- The cards of a mask listed in increasing id order; this is the order in
which the C++ code enumerates set bits with `__builtin_ctz` (lowest first). -/
def toCards (m : Nat) : List Nat := (List.range 32).filter m.testBit

/-- `CardSet.size`: number of cards present. -/
def csSize (m : Nat) : Nat := (toCards m).length

/-! ### Move generation (`minimax.cpp`, `get_max_strength` and
`generate_legal_moves`) -/

/-- `get_max_strength`: highest strength among the trick's cards of suit `s`
(`-1` when the trick holds no card of suit `s`). -/
def get_max_strength (trick : List (Nat × Nat)) (s trump : Nat) : Int :=
  trick.foldl (fun acc pc => if pc.2 / 8 = s then max acc (strength pc.2 trump) else acc) (-1)

/-- `generate_legal_moves`: the legal plays for `hand` given the current
`trick` and the `trump` suit, in the order the C++ code fills its output
buffer (ascending card id within each category). -/
def generate_legal_moves (hand : Nat) (trick : List (Nat × Nat)) (trump : Nat) :
    List Nat :=
  if hand = 0 then []
  else
    match trick with
    | [] => toCards hand
    | pc0 :: _ =>
      let lead := pc0.2 / 8
      let follow := (toCards hand).filter (fun c => c / 8 = lead)
      let trumps := (toCards hand).filter (fun c => c / 8 = trump)
      if follow ≠ [] then
        if lead = trump then
          let maxTr := get_max_strength trick trump trump
          let higher := follow.filter (fun c => maxTr < strength c trump)
          if higher ≠ [] then higher else follow
        else follow
      else if trumps ≠ [] then
        let maxTr := get_max_strength trick trump trump
        let higher := trumps.filter (fun c => maxTr < strength c trump)
        if higher ≠ [] then higher else trumps
      else toCards hand

/-! ### Zobrist keys (`minimax.hpp`, `ZobristTable` seeded from
`std::mt19937_64 rng(42)`).

`std::mt19937_64` has word size 64, state size 312, shift size 156,
mask bits 31, xor mask `0xB5026F5AA96619E9`, tempering parameters
`(29, 0x5555555555555555)`, `(17, 0x71D67FFFEDA60000)`,
`(37, 0xFFF7EEE000000000)`, `43`, and initialization multiplier
`6364136223846793005`.  Seeding fills the 312-word state from the seed;
generation twists the state in place and tempers each word.  The solver
consumes the first 169 outputs (`hand[4][32]`, `trick[32]`, `turn[4]`,
`trump[5]`, in that order). -/

/-- One step of `mt19937_64` state initialization
(`mt[i] = f * (mt[i-1] ^ (mt[i-1] >> 62)) + i` modulo `2^64`). -/
def mtSeedStep (prev i : Nat) : Nat :=
  (6364136223846793005 * (prev ^^^ (prev >>> 62)) + i) % 2 ^ 64

/-- The `i`-th word of the seeded (untwisted) `mt19937_64` state for seed 42. -/
def mtSeed : Nat → Nat
  | 0 => 42
  | i + 1 => mtSeedStep (mtSeed i) (i + 1)

/-- The seeded 312-word state. -/
def mtSeedList : List Nat := (List.range 312).map mtSeed

/-- One in-place update of the twist loop at index `i`: the state list is
updated at position `i` from the (partially twisted) state. -/
def mtTwistStep (s : List Nat) (i : Nat) : List Nat :=
  let y := (s.getD i 0 % 2 ^ 64 / 2 ^ 31 * 2 ^ 31) + s.getD ((i + 1) % 312) 0 % 2 ^ 31
  let v := s.getD ((i + 156) % 312) 0 ^^^ (y >>> 1) ^^^
      (if y % 2 = 1 then 13043109905998158313 else 0)
  s.set i v

/-- The state after one full twist (the only block the solver consumes). -/
def mtTwisted : List Nat := (List.range 312).foldl mtTwistStep mtSeedList

/-- `mt19937_64` output tempering. -/
def mtTemper (y : Nat) : Nat :=
  let y1 := y ^^^ ((y >>> 29) &&& 6148914691236517205)
  let y2 := y1 ^^^ ((y1 <<< 17) &&& 8202884508482404352)
  let y3 := y2 ^^^ ((y2 <<< 37) &&& 18444473444759240704)
  y3 ^^^ (y3 >>> 43)

/-- The `k`-th output of `std::mt19937_64` seeded with 42 (for `k < 312`). -/
def mtOut (k : Nat) : Nat := mtTemper (mtTwisted.getD k 0)

/-- The Zobrist key table (`ZobristTable` of `minimax.hpp`): 64-bit keys for
hand membership, trick membership, turn, and trump (the trump keys are unused
by the search). -/
structure ZTable where
  hand : List (List Nat)
  trick : List Nat
  turn : List Nat
  trump : List Nat
deriving DecidableEq

/-- The process-wide Zobrist table, filled from `std::mt19937_64 rng(42)` in
constructor order: `hand[p][c]` for `p = 0..3`, `c = 0..31`, then `trick[c]`,
then `turn[p]`, then `trump[s]`. -/
def Zobrist : ZTable :=
  ⟨(List.range 4).map fun p => (List.range 32).map fun c => mtOut (p * 32 + c),
   (List.range 32).map fun c => mtOut (128 + c),
   (List.range 4).map fun p => mtOut (160 + p),
   (List.range 5).map fun s => mtOut (164 + s)⟩

/-- The Zobrist table written out as numerals (checked against the
`mt19937_64` construction by `Zobrist_eq_lit`); used to keep concrete
evaluations cheap. -/
def ZobristLit : ZTable :=
  ⟨[
    [13930160852258120406, 11788048577503494824, 13874630024467741450, 2513787319205155662, 16662371453428439381, 1735254072534978428, 10598951352238613536, 6878563960102566144, 5052085463162682550, 7199227068870524257, 228421809995595595, 9660662969780974662, 12641024047231570392, 11756813601242511406, 15247151809474287309, 17445057953250372392, 13894429094723042358, 8281039959893252210, 863363284242328609, 1191558566432429351, 13790833685792291659, 2754439531571637074, 7844568153688966425, 1845540734139632329, 2654745661507182789, 1737174442215405460, 9779749702314848553, 8230880805042587372, 14259680413192756630, 2260059874028813140, 13745877420346827559, 5972285565579831383],
    [13852939945820309002, 14837314206658177788, 802755865932238316, 17083575664699140167, 13717896263291496976, 7674742225009642846, 5490303868621132312, 356026987630627907, 12910137490375976151, 8475173802139524784, 9904615985190967285, 9017917336912873721, 3905021596305138296, 11200519612596959265, 9095644588462671662, 7082551140223756963, 12305895460640548825, 7673463654085877694, 8015438448961043528, 1689918173331877215, 1369488287975699908, 15135856004116374681, 8808491887799892467, 8179950246258078550, 18362789087893070577, 10974710480031330365, 11419262694613242363, 10640158997469854152, 15887571027615820885, 8775471937118169068, 15195899463999599281, 9071860959442628311],
    [8201586468252878983, 5719011471609942381, 5479617935358389953, 9643816490275617805, 6730682062675188990, 14089583241851970809, 5635197312546352421, 12655462067761187474, 13449440608602046021, 12003604003375228597, 15057306993407618412, 14519949469937725968, 12028965273189028973, 14643909474857509060, 7425896615464932340, 17277487187655181768, 6415102370970183924, 5524091569279524857, 13616144209351984247, 10955163132447033890, 6505102374790815543, 2558289301845890764, 11523058457548473969, 10933791571124844362, 9622040483023955695, 11306257618139311415, 1091573458739121057, 6769139033989907147, 13564598501354656307, 11284935533708579323, 7295876401271698790, 17199019957320207159],
    [13662499872620805028, 4245035599922404824, 9760536308086105382, 2284652817114888113, 14527092701753739155, 4330311205310684070, 1705144956923856113, 16416316360096776272, 8707574188118886365, 2086535199846148700, 12773246362538168504, 2346890632840894497, 13284161663367897779, 11156056256940801702, 6566438270435079793, 14184426567501892882, 17139694578917964110, 18378075785519122098, 7204465313303453675, 6851265376491149528, 15352752417848660924, 14110417730090252005, 12151366065456011676, 16295724074265115720, 1210918179097896991, 5985353713536666361, 5407581766005195250, 7682697000516062645, 2962136845556608218, 15711374058970801590, 8962570470288761126, 5366386181152705559]],
   [15105473404528537499, 7907729455315274724, 1474346148541527469, 16158503985811047924, 14609042902951154655, 16662340640656964608, 15770058668595058971, 491218943873080365, 13736650249500409524, 1292099914962507676, 3806245710326411369, 11622712433991736902, 8168170408415742480, 6138830072576419001, 6581589873851971950, 12993031878947736938, 6243142086056539963, 13698981439924777122, 3022290795689847035, 12029242090734122692, 1497667367958376958, 7387193433063974682, 6611582183532963863, 9532358457880247002, 12388837363011885658, 13314773417382220648, 9255963573622641440, 9644072662424383990, 7328950323976250927, 14604503762832768879, 3460848478746553427, 6450471907083839735],
   [10228646956711648526, 1498319470492480755, 4303100273003610470, 7977243703868154757],
   [8730092574978919811, 4015964408900624350, 11035642564482682699, 18276241805241254269, 16651586365225016475]⟩

/-- `hand[p][c]` key. -/
def zhand (zt : ZTable) (p c : Nat) : Nat := (zt.hand.getD p []).getD c 0

/-- `trick[c]` key. -/
def ztrick (zt : ZTable) (c : Nat) : Nat := zt.trick.getD c 0

/-- `turn[p]` key. -/
def zturn (zt : ZTable) (p : Nat) : Nat := zt.turn.getD p 0

/-! ### Alpha-beta searcher with transposition table (`minimax.cpp`,
`MinimaxSolver`).

The transposition table is a direct-mapped array of `2^22` slots, each an
entry `(key, value)`; the constructor fills every slot with `(0, -99999)`.
We model it as a total function from slot index to entry.  The recursion of
`_alpha_beta` is driven by a fuel argument; each recursive call plays one
card, so the depth is bounded by the number of cards (at most 32) and
`MinimaxSolver.solve` passes fuel 33, which is never exhausted on inputs the
caller may produce. -/

/-- The transposition table: slot index to `(key, value)`. -/
def TT : Type := Nat → Nat × Int

/-- Constructor state of `MinimaxSolver`: every slot holds key 0 and value
`-99999`. -/
def ttInit : TT := fun _ => (0, -99999)

/-- `mask = 2^22 - 1` (the table has `1 << 22` slots). -/
def ttMask : Nat := 2 ^ 22 - 1

/-- Stable insertion into a strength-descending list: `x` goes after every
element of not-smaller strength.  `std::sort` on at most 8 elements is
libstdc++'s insertion sort, which is stable, so ties keep the generator's
ascending-id order. -/
def insertDesc (x : Int × Nat) : List (Int × Nat) → List (Int × Nat)
  | [] => [x]
  | y :: ys => if y.1 < x.1 then x :: y :: ys else y :: insertDesc x ys

/-- Move ordering of `_alpha_beta`: sort the legal moves by descending
trump-aware strength (stable). -/
def sortMovesDesc (trump : Nat) (moves : List Nat) : List Nat :=
  (((moves.map fun c => (strength c trump, c)).foldl
      (fun acc x => insertDesc x acc) []).map fun sc => sc.2)

/-- Winner of a completed trick: the entry whose effective strength is
greatest, where a trump card scores `1000 + strength`, a lead-suit card
scores its strength, and any other card scores `-1`; the fold keeps the
first maximum, starting from `(-1, -1)` as in the C++ loop. -/
def trickWinner (trick : List (Nat × Nat)) (lead trump : Nat) : Int :=
  (trick.foldl
    (fun acc pc =>
      let str : Int :=
        if pc.2 / 8 = trump then 1000 + strength pc.2 trump
        else if pc.2 / 8 = lead then strength pc.2 trump
        else -1
      if acc.1 < str then (str, (pc.1 : Int)) else acc)
    ((-1 : Int), (-1 : Int))).2

/-- Sum of the point values of the trick's cards. -/
def trickPoints (trick : List (Nat × Nat)) (trump : Nat) : Int :=
  trick.foldl (fun acc pc => acc + points pc.2 trump) 0

/-- One move of the search loop: play `c` (remove it from the hand, append
it to the trick, update the digest), resolve the trick when it is the fourth
card, and recurse through `rec` (the search at the remaining fuel, applied to
`hands, trick, starter, ns, ew, alpha, beta, hash, tt`). -/
def abStep (zt : ZTable) (trump : Nat)
    (rec : List Nat → List (Nat × Nat) → Nat → Int → Int → Int → Int → Nat → TT → Int × TT)
    (player : Nat) (hands : List Nat) (trick : List (Nat × Nat)) (starter : Nat)
    (ns ew : Int) (hash : Nat) (c : Nat) (alpha beta : Int) (tt : TT) : Int × TT :=
  let nextHash := hash ^^^ zhand zt player c ^^^ zturn zt player ^^^ ztrick zt c
  let hands' := hands.set player (csRemove (hands.getD player 0) c)
  let trick' := trick ++ [(player, c)]
  if trick'.length = 4 then
    let lead := (trick'.headD (0, 0)).2 / 8
    let winner := (trickWinner trick' lead trump).toNat
    let basePts := trickPoints trick' trump
    let pts := if hands'.getD 0 0 = 0 then basePts + 10 else basePts
    let nns := ns + (if winner % 2 = 0 then pts else 0)
    let new := ew + (if winner % 2 = 1 then pts else 0)
    let clearedHash :=
      (trick'.foldl (fun a pc => a ^^^ ztrick zt pc.2) nextHash) ^^^ zturn zt winner
    rec hands' [] winner nns new alpha beta clearedHash tt
  else
    rec hands' trick' starter ns ew alpha beta
      (nextHash ^^^ zturn zt ((player + 1) % 4)) tt

/-- The move loop of `_alpha_beta`: try each sorted move in turn, threading
`alpha`, `beta`, `best` and the table, cutting when `beta ≤ alpha`. -/
def abLoop (zt : ZTable) (trump team : Nat)
    (rec : List Nat → List (Nat × Nat) → Nat → Int → Int → Int → Int → Nat → TT → Int × TT)
    (player : Nat) (isAtt : Bool) (hands : List Nat) (trick : List (Nat × Nat))
    (starter : Nat) (ns ew : Int) (hash : Nat) :
    List Nat → Int → Int → Int → TT → Int × TT
  | [], _, _, best, tt => (best, tt)
  | c :: rest, alpha, beta, best, tt =>
    let r := abStep zt trump rec player hands trick starter ns ew hash c alpha beta tt
    if isAtt then
      let best' := if best < r.1 then r.1 else best
      let alpha' := max alpha best'
      if beta ≤ alpha' then (best', r.2)
      else abLoop zt trump team rec player isAtt hands trick starter ns ew hash
          rest alpha' beta best' r.2
    else
      let best' := if r.1 < best then r.1 else best
      let beta' := min beta best'
      if beta' ≤ alpha then (best', r.2)
      else abLoop zt trump team rec player isAtt hands trick starter ns ew hash
          rest alpha beta' best' r.2

/-- `MinimaxSolver::_alpha_beta` (fuel-indexed; out of fuel yields
`(-99999, tt)` and is unreachable from `solve`). -/
def alphaBeta (zt : ZTable) (trump team : Nat) :
    Nat → List Nat → List (Nat × Nat) → Nat → Int → Int → Int → Int → Nat → TT → Int × TT
  | 0, _, _, _, _, _, _, _, _, tt => (-99999, tt)
  | fuel + 1, hands, trick, starter, ns, ew, alpha, beta, hash, tt =>
    if hands.getD 0 0 = 0 ∧ trick = [] then ((if team = 0 then ns else ew), tt)
    else
      let idx := hash &&& ttMask
      if (tt idx).1 = hash then ((tt idx).2, tt)
      else
        let player := (starter + trick.length) % 4
        let isAtt := player % 2 == team
        let moves := generate_legal_moves (hands.getD player 0) trick trump
        let sorted := if 1 < moves.length then sortMovesDesc trump moves else moves
        let best0 : Int := if isAtt then -1 else 9999
        let r := abLoop zt trump team (alphaBeta zt trump team fuel) player isAtt
            hands trick starter ns ew hash sorted alpha beta best0 tt
        (r.1, fun j => if j = idx then (hash, r.1) else r.2 j)

/-- Initial digest construction of `MinimaxSolver::solve`: XOR of the hand
keys of every card in every hand, the trick keys of the current trick's
cards, and the turn key of the player to move. -/
def initHash (zt : ZTable) (hands : List Nat) (current_trick : List (Nat × Nat))
    (starter_player : Nat) : Nat :=
  let handsHash := (List.range 4).foldl
    (fun a p => (toCards (hands.getD p 0)).foldl (fun b c => b ^^^ zhand zt p c) a) 0
  let trickHash := current_trick.foldl (fun a pc => a ^^^ ztrick zt pc.2) handsHash
  trickHash ^^^ zturn zt ((starter_player + current_trick.length) % 4)

/-- `MinimaxSolver::solve`, parameterized over the key table: computes the
initial Zobrist digest, then searches with the root window `(-1, 163)`.  The
solver's table is threaded explicitly: the argument `tt` is the table state
of the solver instance, and the returned table is its state after the call. -/
def solveZ (zt : ZTable) (tt : TT) (hands : List Nat) (contract_suit contract_player : Nat)
    (current_trick : List (Nat × Nat)) (starter_player : Nat) (ns_points ew_points : Int) :
    Int × TT :=
  let contract_team := contract_player % 2
  alphaBeta zt contract_suit contract_team 33 hands current_trick starter_player
    ns_points ew_points (-1) 163 (initHash zt hands current_trick starter_player) tt

/-- `MinimaxSolver::solve` with the static `Zobrist` table of the source.
The model follows the 7-argument interface declared in `minimax.hpp` and used
by every caller; the definition in `minimax.cpp` spells an extra
`contract_amount` parameter that no caller passes and the body never reads. -/
def solve (tt : TT) (hands : List Nat) (contract_suit contract_player : Nat)
    (current_trick : List (Nat × Nat)) (starter_player : Nat) (ns_points ew_points : Int) :
    Int × TT :=
  solveZ Zobrist tt hands contract_suit contract_player current_trick starter_player
    ns_points ew_points

/-! ### Python bindings (`bindings.cpp`) -/

/-- Build a `CardSet` mask from a list of card ids (`hands[i].add(c)` loop). -/
def buildHand (cards : List Nat) : Nat := cards.foldl csAdd 0

/-- `solve_wrapper`: validates that exactly 4 hands are supplied (throwing
`"Must provide 4 hands"` otherwise), builds the masks, and runs `solve` on a
fresh solver. -/
def solve_wrapper (py_hands : List (List Nat)) (contract_suit contract_player : Nat)
    (current_trick : List (Nat × Nat)) (starter_player : Nat) (ns_points ew_points : Int) :
    Except String Int :=
  if py_hands.length ≠ 4 then Except.error "Must provide 4 hands"
  else
    let hands := (List.range 4).map fun i => buildHand (py_hands.getD i [])
    Except.ok (solve ttInit hands contract_suit contract_player current_trick
      starter_player ns_points ew_points).1

/-- `solve_all_suits_wrapper`: validates the hand count, then runs `solve`
once per trump suit 0..3 on one shared solver instance (the transposition
table is carried from one suit's search into the next).  The returned list is
indexed by suit. -/
def solve_all_suits_wrapper (py_hands : List (List Nat)) (contract_player : Nat)
    (current_trick : List (Nat × Nat)) (starter_player : Nat) (ns_points ew_points : Int) :
    Except String (List Int) :=
  if py_hands.length ≠ 4 then Except.error "Must provide 4 hands"
  else
    let hands := (List.range 4).map fun i => buildHand (py_hands.getD i [])
    Except.ok ((List.range 4).foldl
      (fun (acc : List Int × TT) s =>
        let r := solve acc.2 hands s contract_player current_trick starter_player
          ns_points ew_points
        (acc.1 ++ [r.1], r.2))
      ([], ttInit)).1

/-! ### Specification-side game value.

`specMinimaxValue` is the game value described by the specification's
contract for `solve` (spec §4.4 and claim C1): the value of the game tree in
which the contract team maximises and the defending team minimises, each
trick is resolved by the effective-strength rule, and the winner's team
accumulates the trick's points plus the last-trick bonus.  It shares the
card tables, move generator, and trick resolution with the code model but
has no transposition table and no pruning. -/

/-- Reference minimax value of the game tree (spec wording of `solve`'s
contract); fuel-indexed like the searcher, with fuel 33 at the root. -/
def specMinimaxAux (trump team : Nat) :
    Nat → List Nat → List (Nat × Nat) → Nat → Int → Int → Int
  | 0, _, _, _, _, _ => 0
  | fuel + 1, hands, trick, starter, ns, ew =>
    if hands.all (fun m => m == 0) ∧ trick = [] then (if team = 0 then ns else ew)
    else
      let player := (starter + trick.length) % 4
      let isAtt := player % 2 == team
      let moves := generate_legal_moves (hands.getD player 0) trick trump
      let vals := moves.map fun c =>
        let hands' := hands.set player (csRemove (hands.getD player 0) c)
        let trick' := trick ++ [(player, c)]
        if trick'.length = 4 then
          let lead := (trick'.headD (0, 0)).2 / 8
          let winner := (trickWinner trick' lead trump).toNat
          let basePts := trickPoints trick' trump
          let pts := if hands'.all (fun m => m == 0) then basePts + 10 else basePts
          let nns := ns + (if winner % 2 = 0 then pts else 0)
          let new := ew + (if winner % 2 = 1 then pts else 0)
          specMinimaxAux trump team fuel hands' [] winner nns new
        else
          specMinimaxAux trump team fuel hands' trick' starter ns ew
      match vals with
      | [] => if team = 0 then ns else ew
      | v :: vs => vs.foldl (fun a b => if isAtt then max a b else min a b) v

/-- The game value of a starting state per the specification's contract for
`solve`. -/
def specMinimaxValue (hands : List Nat) (trump contract_player : Nat)
    (current_trick : List (Nat × Nat)) (starter : Nat) (ns ew : Int) : Int :=
  specMinimaxAux trump (contract_player % 2) 33 hands current_trick starter ns ew

/-! ### Legality and score accounting (proof-side ghost functions) -/

/-- Sum of point values of the cards of a mask. -/
def maskPoints (m trump : Nat) : Int := ((toCards m).map fun c => points c trump).sum

/-- Sum of point values of the cards still in the four hands. -/
def handsPoints (hands : List Nat) (trump : Nat) : Int :=
  (List.range 4).foldl (fun a p => a + maskPoints (hands.getD p 0) trump) 0

/-- Upper bound on what any terminal reachable from a state can hand to one
team: the points already accumulated, plus the points of every card still in
play, plus the last-trick bonus when any card remains. -/
def stateBound (hands : List Nat) (trick : List (Nat × Nat)) (trump : Nat)
    (ns ew : Int) : Int :=
  ns + ew + handsPoints hands trump + trickPoints trick trump +
    (if hands.getD 0 0 = 0 ∧ trick = [] then 0 else 10)

/-- Structural invariant of states reachable by the search (the part of
legality the searcher relies on): four hands of 32-bit masks, a trick of at
most 3 entries played in seating order from the starter, non-negative
accumulated scores, and hand sizes consistent with a partially played trick
(every player yet to play in the current trick holds `n` cards, every player
who has already played holds `n - 1`). -/
def SearchInv (hands : List Nat) (trick : List (Nat × Nat)) (starter : Nat)
    (ns ew : Int) : Prop :=
  hands.length = 4 ∧
  (∀ p < 4, hands.getD p 0 < 2 ^ 32) ∧
  trick.length ≤ 3 ∧
  trick.map Prod.fst = (List.range trick.length).map (fun j => (starter + j) % 4) ∧
  0 ≤ ns ∧ 0 ≤ ew ∧
  ∃ n ≤ 8, ∀ p < 4,
    csSize (hands.getD p 0) + (if p ∈ trick.map Prod.fst then 1 else 0) = n

/-- A legal starting state for `solve` (spec §3 and §6): the structural
search invariant together with full card bookkeeping — the 32 cards are
pairwise distinct across hands and trick, every card id is in range, the
hand count per player is at most 8, and the contract player and starter are
player indices. -/
def LegalState (hands : List Nat) (trick : List (Nat × Nat)) (starter : Nat)
    (contract_player : Nat) (ns ew : Int) : Prop :=
  SearchInv hands trick starter ns ew ∧
  starter < 4 ∧ contract_player < 4 ∧
  (∀ p < 4, csSize (hands.getD p 0) ≤ 8) ∧
  (∀ p < 4, ∀ q < 4, p ≠ q → hands.getD p 0 &&& hands.getD q 0 = 0) ∧
  (∀ pc ∈ trick, pc.2 < 32 ∧ ∀ p < 4, ¬(hands.getD p 0).testBit pc.2) ∧
  (trick.map Prod.snd).Nodup

instance (hands : List Nat) (trick : List (Nat × Nat)) (starter : Nat) (ns ew : Int) :
    Decidable (SearchInv hands trick starter ns ew) := by
  unfold SearchInv
  infer_instance

instance (hands : List Nat) (trick : List (Nat × Nat)) (starter contract_player : Nat)
    (ns ew : Int) : Decidable (LegalState hands trick starter contract_player ns ew) := by
  unfold LegalState
  infer_instance

/-- XOR of `f` over a list (proof-side; the source accumulates the same XOR
with in-place loops). -/
def xorFold {α : Type} (f : α → Nat) (l : List α) : Nat :=
  l.foldl (fun b x => b ^^^ f x) 0

/-- XOR of all hand keys of the cards held (proof-side decomposition of the
initial digest). -/
def handsXor (zt : ZTable) (hands : List Nat) : Nat :=
  xorFold (fun p => xorFold (zhand zt p) (toCards (hands.getD p 0))) (List.range 4)

/-! ## Theorems -/

set_option maxRecDepth 100000 in
/-- The generated table and the literal table agree. -/
theorem Zobrist_eq_lit : Zobrist = ZobristLit := by decide

/-- Membership in the card list of a mask. -/
theorem mem_toCards {m c : Nat} : c ∈ toCards m ↔ c < 32 ∧ m.testBit c := by
  simp [toCards, List.mem_filter, List.mem_range]

/-- A mask with a card is not the empty mask. -/
theorem ne_zero_of_mem_toCards {m c : Nat} (h : c ∈ toCards m) : m ≠ 0 := by
  rcases mem_toCards.1 h with ⟨-, hbit⟩
  intro h0
  rw [h0] at hbit
  simp [Nat.testBit] at hbit

/-- C6 — When the trick is non-empty, its lead suit is not trump, and the
hand holds at least one card of the lead suit, every generated move has the
lead suit. -/
theorem c6_follow_lead_suit (hand trump p0 c0 : Nat) (rest : List (Nat × Nat))
    (hlead : c0 / 8 ≠ trump)
    (hfollow : ∃ x ∈ toCards hand, x / 8 = c0 / 8) :
    ∀ c ∈ generate_legal_moves hand ((p0, c0) :: rest) trump, c / 8 = c0 / 8 := by
  obtain ⟨x, hx, hxs⟩ := hfollow
  have h0 : hand ≠ 0 := ne_zero_of_mem_toCards hx
  have hne : ((toCards hand).filter fun c => decide (c / 8 = c0 / 8)) ≠ [] := by
    intro he
    rw [List.filter_eq_nil_iff] at he
    exact he x hx (by simpa using hxs)
  intro c hc
  simp only [generate_legal_moves, if_neg h0] at hc
  rw [if_pos hne, if_neg hlead] at hc
  simpa using (List.mem_filter.1 hc).2

/-- C5 — When the trick is non-empty, the hand holds no card of the lead
suit but holds at least one trump, every generated move is a trump; and if
moreover some held trump is strictly stronger than the trick's strongest
trump, every generated move is such a strictly stronger trump. -/
theorem c5_must_overtrump (hand trump p0 c0 : Nat) (rest : List (Nat × Nat))
    (hnof : ∀ x ∈ toCards hand, x / 8 ≠ c0 / 8)
    (htr : ∃ x ∈ toCards hand, x / 8 = trump) :
    (∀ c ∈ generate_legal_moves hand ((p0, c0) :: rest) trump, c / 8 = trump) ∧
    ((∃ x ∈ toCards hand, x / 8 = trump ∧
        get_max_strength ((p0, c0) :: rest) trump trump < strength x trump) →
      ∀ c ∈ generate_legal_moves hand ((p0, c0) :: rest) trump,
        c / 8 = trump ∧ get_max_strength ((p0, c0) :: rest) trump trump < strength c trump) := by
  obtain ⟨x, hx, hxs⟩ := htr
  have h0 : hand ≠ 0 := ne_zero_of_mem_toCards hx
  have hfe : ((toCards hand).filter fun c => decide (c / 8 = c0 / 8)) = [] := by
    rw [List.filter_eq_nil_iff]
    intro a ha
    simpa using hnof a ha
  have htne : ((toCards hand).filter fun c => decide (c / 8 = trump)) ≠ [] := by
    intro he
    rw [List.filter_eq_nil_iff] at he
    exact he x hx (by simpa using hxs)
  constructor
  · intro c hc
    simp only [generate_legal_moves, if_neg h0] at hc
    rw [if_neg (not_not_intro hfe), if_pos htne] at hc
    split at hc
    · have := (List.mem_filter.1 hc).1
      simpa using (List.mem_filter.1 this).2
    · simpa using (List.mem_filter.1 hc).2
  · rintro ⟨y, hy, hys, hystr⟩ c hc
    have hyh : y ∈ (((toCards hand).filter fun c => decide (c / 8 = trump)).filter
        fun c => decide (get_max_strength ((p0, c0) :: rest) trump trump < strength c trump)) := by
      refine List.mem_filter.2 ⟨List.mem_filter.2 ⟨hy, by simpa using hys⟩, by simpa using hystr⟩
    have hhne : (((toCards hand).filter fun c => decide (c / 8 = trump)).filter
        fun c => decide (get_max_strength ((p0, c0) :: rest) trump trump < strength c trump)) ≠ [] :=
      List.ne_nil_of_mem hyh
    simp only [generate_legal_moves, if_neg h0] at hc
    rw [if_neg (not_not_intro hfe), if_pos htne, if_pos hhne] at hc
    refine ⟨?_, ?_⟩
    · have := (List.mem_filter.1 hc).1
      simpa using (List.mem_filter.1 this).2
    · simpa using (List.mem_filter.1 hc).2

/-- Witness for C6: hand `{A-Hearts, 7-Clubs}`, trick led with 8-Hearts,
trump Spades. -/
theorem c6_follow_lead_suit_witness :
    ((1 : Nat) / 8 ≠ 3 ∧ ∃ x ∈ toCards 65664, x / 8 = 1 / 8) ∧
    (∀ c ∈ generate_legal_moves 65664 [(2, 1)] 3, c / 8 = 1 / 8) :=
  ⟨by decide, c6_follow_lead_suit 65664 3 2 1 [] (by decide) (by decide)⟩

/-- Witness for C5: hand `{7-Hearts, 8-Clubs}`, trick led with 7-Diamonds,
trump Hearts. -/
theorem c5_must_overtrump_witness :
    ((∀ x ∈ toCards 131073, x / 8 ≠ 8 / 8) ∧ (∃ x ∈ toCards 131073, x / 8 = 0)) ∧
    (∀ c ∈ generate_legal_moves 131073 [(2, 8)] 0, c / 8 = 0) :=
  ⟨by decide, (c5_must_overtrump 131073 0 2 8 [] (by decide) (by decide)).1⟩

/-- C10 — When player 0's hand is empty and the current trick is empty,
`solve` returns `ns_points` for an even contract player and `ew_points`
otherwise, and leaves the transposition table untouched (no card of the
other hands is played), whatever players 1..3 hold. -/
theorem c10_terminal_on_hand0 (tt : TT) (hands : List Nat) (cs cp : Nat)
    (trick : List (Nat × Nat)) (st : Nat) (ns ew : Int)
    (h0 : hands.getD 0 0 = 0) (ht : trick = []) :
    solve tt hands cs cp trick st ns ew = ((if cp % 2 = 0 then ns else ew), tt) := by
  subst ht
  show solveZ Zobrist tt hands cs cp [] st ns ew = _
  unfold solveZ
  show alphaBeta Zobrist cs (cp % 2) (32 + 1) hands [] st ns ew (-1) 163 _ tt = _
  rw [alphaBeta]
  rw [if_pos ⟨h0, rfl⟩]

/-- Witness for C10: player 0 empty, players 1..3 still hold a card each,
odd contract player; `solve` returns the EW total 7. -/
theorem c10_terminal_on_hand0_witness :
    ([0, 256, 65536, 16777216] : List Nat).getD 0 0 = 0 ∧
    solve ttInit [0, 256, 65536, 16777216] 0 1 [] 0 5 7 = (7, ttInit) :=
  ⟨rfl, by
    simpa using c10_terminal_on_hand0 ttInit [0, 256, 65536, 16777216] 0 1 [] 0 5 7 rfl rfl⟩

/-- C8 — Both entry points fail with the single error `"Must provide 4
hands"` exactly when the number of supplied hands is not 4, and on any
4-hand input they return a result (the search is a total function and runs
to completion). -/
theorem c8_malformed_input (py_hands : List (List Nat)) (cs cp : Nat)
    (trick : List (Nat × Nat)) (st : Nat) (ns ew : Int) :
    (solve_wrapper py_hands cs cp trick st ns ew = Except.error "Must provide 4 hands"
        ↔ py_hands.length ≠ 4) ∧
    (solve_all_suits_wrapper py_hands cp trick st ns ew = Except.error "Must provide 4 hands"
        ↔ py_hands.length ≠ 4) ∧
    ((∃ v, solve_wrapper py_hands cs cp trick st ns ew = Except.ok v)
        ↔ py_hands.length = 4) ∧
    ((∃ vs, solve_all_suits_wrapper py_hands cp trick st ns ew = Except.ok vs)
        ↔ py_hands.length = 4) := by
  by_cases h : py_hands.length = 4 <;>
    simp [solve_wrapper, solve_all_suits_wrapper, h]

/-- Rerunning `_alpha_beta` on the table it produced returns the same value
and the same table: the non-terminal cases either hit the stored root entry
or re-derive the identical result. -/
theorem alphaBeta_rerun (zt : ZTable) (trump team fuel : Nat) (hands : List Nat)
    (trick : List (Nat × Nat)) (starter : Nat) (ns ew alpha beta : Int) (hash : Nat) (tt : TT) :
    alphaBeta zt trump team (fuel + 1) hands trick starter ns ew alpha beta hash
      (alphaBeta zt trump team (fuel + 1) hands trick starter ns ew alpha beta hash tt).2 =
    alphaBeta zt trump team (fuel + 1) hands trick starter ns ew alpha beta hash tt := by
  by_cases hb : hands.getD 0 0 = 0 ∧ trick = []
  · simp only [alphaBeta, if_pos hb]
  · by_cases hh : (tt (hash &&& ttMask)).1 = hash
    · simp only [alphaBeta, if_neg hb, if_pos hh]
    · simp only [alphaBeta, if_neg hb, if_neg hh]
      simp

/-- C4 — `solve` is deterministic: it is a function of its arguments (two
calls with structurally equal arguments are the same call), and repeating a
call on the warm solver state left by the first call returns the same value
(and leaves the table as it was): the root entry stored by the first call is
hit, or the terminal case returns the same score. -/
theorem c4_solve_deterministic (tt : TT) (hands : List Nat) (cs cp : Nat)
    (trick : List (Nat × Nat)) (st : Nat) (ns ew : Int) :
    solve (solve tt hands cs cp trick st ns ew).2 hands cs cp trick st ns ew =
      solve tt hands cs cp trick st ns ew := by
  show solveZ Zobrist _ hands cs cp trick st ns ew = solveZ Zobrist tt hands cs cp trick st ns ew
  unfold solveZ
  exact alphaBeta_rerun Zobrist cs (cp % 2) 32 hands trick st ns ew (-1) 163
    (initHash Zobrist hands trick st) tt

/-- `solve` with the `mt19937_64`-derived table is `solveZ` applied to the
literal table. -/
theorem solve_eq_solveZ_lit : solve = solveZ ZobristLit := by
  rw [← Zobrist_eq_lit]
  rfl

set_option maxRecDepth 1000000 in
/-- C1 — counterexample: a legal 12-card endgame with zero prior scores
(hands `{JD, AD, 8S} / {7H, 9S, KS} / {TD, 7C, 8C} / {QD, QC, JS}`, trump
Clubs, contract player 3, starter 0) on which `solve` returns 3 through a
stale transposition-table value while the minimax value of the game tree is
7. -/
theorem c1_solve_ne_minimax :
    LegalState [33591296, 1140850689, 198656, 270540800] [] 0 3 0 0 ∧
    (solve ttInit [33591296, 1140850689, 198656, 270540800] 2 3 [] 0 0 0).1 = 3 ∧
    specMinimaxValue [33591296, 1140850689, 198656, 270540800] 2 3 [] 0 0 0 = 7 ∧
    (solve ttInit [33591296, 1140850689, 198656, 270540800] 2 3 [] 0 0 0).1 ≠
      specMinimaxValue [33591296, 1140850689, 198656, 270540800] 2 3 [] 0 0 0 := by
  rw [solve_eq_solveZ_lit]
  have h2 : (solveZ ZobristLit ttInit [33591296, 1140850689, 198656, 270540800]
      2 3 [] 0 0 0).1 = 3 := by decide
  have h3 : specMinimaxValue [33591296, 1140850689, 198656, 270540800] 2 3 [] 0 0 0 = 7 := by
    decide
  exact ⟨by decide, h2, h3, by rw [h2, h3]; decide⟩

set_option maxRecDepth 1000000 in
/-- C3 — counterexample: a legal one-trick endgame (hands
`{AD} / {7H} / {7S} / {8S}`, contract player 0, starter 0) on which the
shared-solver `solve_all_suits` returns 0 for every suit (each later suit's
root probe hits the entry stored by the Hearts search, since the digest does
not encode trump), while a fresh `solve` with trump Diamonds returns 21. -/
theorem c3_shared_solver_corrupts_suits :
    (solve_all_suits_wrapper [[15], [0], [24], [25]] 0 [] 0 0 0).toOption = some [0, 0, 0, 0] ∧
    (solve_wrapper [[15], [0], [24], [25]] 1 0 [] 0 0 0).toOption = some 21 ∧
    ((solve_all_suits_wrapper [[15], [0], [24], [25]] 0 [] 0 0 0).toOption.getD []).getD 1 0 ≠
      (solve_wrapper [[15], [0], [24], [25]] 1 0 [] 0 0 0).toOption.getD 0 := by
  have h : solve_all_suits_wrapper [[15], [0], [24], [25]] 0 [] 0 0 0 =
      Except.ok ((List.range 4).foldl
        (fun (acc : List Int × TT) s =>
          let r := solveZ ZobristLit acc.2 ((List.range 4).map fun i =>
            buildHand (([[15], [0], [24], [25]] : List (List Nat)).getD i [])) s 0 [] 0 0 0
          (acc.1 ++ [r.1], r.2))
        ([], ttInit)).1 := by
    rw [solve_all_suits_wrapper, if_neg (by decide)]
    rw [solve_eq_solveZ_lit]
  have h2 : solve_wrapper [[15], [0], [24], [25]] 1 0 [] 0 0 0 =
      Except.ok (solveZ ZobristLit ttInit ((List.range 4).map fun i =>
        buildHand (([[15], [0], [24], [25]] : List (List Nat)).getD i [])) 1 0 [] 0 0 0).1 := by
    rw [solve_wrapper, if_neg (by decide)]
    rw [solve_eq_solveZ_lit]
  rw [h, h2]
  exact ⟨by decide, by decide, by decide⟩

/-- C7 — counterexample: the legal terminal state with no cards left and a
prior NS total of 273 (spec §6 places no upper bound on prior scores), on
which `solve` returns 273 > 272. -/
theorem c7_above_272 :
    LegalState [0, 0, 0, 0] [] 0 0 273 0 ∧
    272 < (solve ttInit [0, 0, 0, 0] 0 0 [] 0 273 0).1 := by
  rw [solve_eq_solveZ_lit]
  exact ⟨by decide, by decide⟩

/-- XOR cancellation. -/
theorem xor_cancel_left (a b : Nat) : a ^^^ (a ^^^ b) = b := by
  rw [← Nat.xor_assoc, Nat.xor_self, Nat.zero_xor]

/-- XOR left-commutativity (for AC normalization). -/
theorem xor_left_comm (a b c : Nat) : a ^^^ (b ^^^ c) = b ^^^ (a ^^^ c) := by
  rw [← Nat.xor_assoc, Nat.xor_comm a b, Nat.xor_assoc]

/-- An XOR fold from an arbitrary accumulator shifts out of the fold. -/
theorem foldl_xor_shift {α : Type} (f : α → Nat) (l : List α) (a : Nat) :
    l.foldl (fun b x => b ^^^ f x) a = a ^^^ xorFold f l := by
  induction l generalizing a with
  | nil => simp [xorFold]
  | cons x xs ih =>
    simp only [List.foldl_cons, xorFold, List.foldl_cons] at ih ⊢
    rw [ih (a ^^^ f x), ih (0 ^^^ f x)]
    simp [Nat.xor_assoc]

/-- `xorFold` over a cons. -/
theorem xorFold_cons {α : Type} (f : α → Nat) (x : α) (l : List α) :
    xorFold f (x :: l) = f x ^^^ xorFold f l := by
  simp only [xorFold, List.foldl_cons]
  rw [foldl_xor_shift f l]
  simp [foldl_xor_shift]

/-- `xorFold` over an append. -/
theorem xorFold_append {α : Type} (f : α → Nat) (l1 l2 : List α) :
    xorFold f (l1 ++ l2) = xorFold f l1 ^^^ xorFold f l2 := by
  simp only [xorFold, List.foldl_append]
  rw [foldl_xor_shift]
  rfl

/-- `xorFold` is invariant under permutation. -/
theorem xorFold_perm {α : Type} (f : α → Nat) {l l' : List α} (h : l.Perm l') :
    xorFold f l = xorFold f l' := by
  induction h with
  | nil => rfl
  | cons x _ ih => rw [xorFold_cons, xorFold_cons, ih]
  | swap x y l => rw [xorFold_cons, xorFold_cons, xorFold_cons, xorFold_cons,
      ← Nat.xor_assoc, ← Nat.xor_assoc, Nat.xor_comm (f y) (f x)]
  | trans _ _ ih1 ih2 => rw [ih1, ih2]

/-- Removing one occurrence of a member XORs its key out. -/
theorem xorFold_erase (f : Nat → Nat) {l : List Nat} {c : Nat} (h : c ∈ l) :
    xorFold f l = f c ^^^ xorFold f (l.erase c) := by
  rw [xorFold_perm f (List.perm_cons_erase h), xorFold_cons]

/-- Bit description of `CardSet.remove` below bit 32. -/
theorem testBit_csRemove (m c i : Nat) (hi : i < 32) :
    (csRemove m c).testBit i = (m.testBit i && !(i == c)) := by
  have h32 : Nat.testBit 4294967295 i = true := by
    have he : (4294967295 : Nat) = 2 ^ 32 - 1 := by norm_num
    rw [he, Nat.testBit_two_pow_sub_one]
    simp [hi]
  by_cases hic : i = c
  · subst hic
    simp [csRemove, Nat.testBit_and, Nat.testBit_xor,
      Nat.one_shiftLeft, Nat.testBit_two_pow, h32]
  · simp [csRemove, Nat.testBit_and, Nat.testBit_xor,
      Nat.one_shiftLeft, Nat.testBit_two_pow, h32, hic, Ne.symm hic]

/-- `CardSet.remove` erases the card from the card list. -/
theorem toCards_csRemove (m c : Nat) :
    toCards (csRemove m c) = (toCards m).erase c := by
  have hnd : (toCards m).Nodup := (List.nodup_range 32).filter _
  rw [hnd.erase_eq_filter c]
  simp only [toCards, List.filter_filter]
  apply List.filter_congr
  intro i hi
  rw [testBit_csRemove m c i (List.mem_range.1 hi)]
  cases hb : m.testBit i <;> cases hic : (i == c) <;> simp_all [bne]


/-- The initial digest is the XOR of the hands digest, the trick digest,
and the turn key of the player to move. -/
theorem initHash_decomp (zt : ZTable) (hands : List Nat) (trick : List (Nat × Nat))
    (starter : Nat) :
    initHash zt hands trick starter =
      handsXor zt hands ^^^ xorFold (fun pc => ztrick zt pc.2) trick ^^^
        zturn zt ((starter + trick.length) % 4) := by
  simp only [initHash, handsXor, foldl_xor_shift, Nat.zero_xor]

/-- `xorFold` over the empty list. -/
theorem xorFold_nil {α : Type} (f : α → Nat) : xorFold f [] = 0 := rfl

/-- Removing a card from a hand XORs its hand key out of the hands digest. -/
theorem handsXor_set (zt : ZTable) (hands : List Nat) (hlen : hands.length = 4)
    (p c : Nat) (hp : p < 4) (hc : c ∈ toCards (hands.getD p 0)) :
    handsXor zt (hands.set p (csRemove (hands.getD p 0) c)) =
      handsXor zt hands ^^^ zhand zt p c := by
  match hands, hlen with
  | [a0, a1, a2, a3], _ =>
    have hrng : List.range 4 = [0, 1, 2, 3] := rfl
    interval_cases p <;>
      (simp only [List.getD_cons_zero, List.getD_cons_succ] at hc) <;>
      (simp only [handsXor, hrng, xorFold_cons, xorFold_nil, List.getD_cons_zero,
        List.getD_cons_succ, List.set]) <;>
      rw [toCards_csRemove, xorFold_erase _ hc] <;>
      simp [Nat.xor_assoc, Nat.xor_comm, xor_left_comm, Nat.xor_self, Nat.xor_zero,
        Nat.zero_xor, xor_cancel_left]


/-- C9 -- The incrementally maintained digest agrees with from-scratch
construction.  Let `p` be the player to move and `c` a card of `p`'s hand.
First conjunct (trick not completed): XORing out `hand[p][c]` and `turn[p]`
and XORing in `trick[c]` and `turn[(p+1) % 4]` turns the state's initial
digest into the initial digest of the state after the play.  Second conjunct
(trick completed, any winner `w < 4`): additionally XORing out the trick keys
of all four cards of the completed trick (the fold mirrors the code's
clearing loop applied to `next_hash`) and XORing in `turn[w]` yields the
initial digest of the cleared state whose starter is `w`. -/
theorem c9_incremental_hash (zt : ZTable) (hands : List Nat) (trick : List (Nat × Nat))
    (starter p : Nat) (c : Nat) (hlen : hands.length = 4)
    (hp : p = (starter + trick.length) % 4)
    (hc : c ∈ toCards (hands.getD p 0)) :
    (initHash zt (hands.set p (csRemove (hands.getD p 0) c)) (trick ++ [(p, c)]) starter =
      initHash zt hands trick starter ^^^ zhand zt p c ^^^ zturn zt p ^^^ ztrick zt c ^^^
        zturn zt ((p + 1) % 4)) ∧
    (∀ w : Nat, w < 4 →
      initHash zt (hands.set p (csRemove (hands.getD p 0) c)) [] w =
        ((trick ++ [(p, c)]).foldl (fun a pc => a ^^^ ztrick zt pc.2)
          (initHash zt hands trick starter ^^^ zhand zt p c ^^^ zturn zt p ^^^ ztrick zt c))
          ^^^ zturn zt w) := by
  have hplt : p < 4 := by omega
  constructor
  · rw [initHash_decomp, initHash_decomp, handsXor_set zt hands hlen p c hplt hc,
      xorFold_append]
    have hl : (trick ++ [(p, c)]).length = trick.length + 1 := by simp
    rw [hl]
    have hm : (starter + (trick.length + 1)) % 4 = (p + 1) % 4 := by omega
    rw [hm, hp]
    simp [xorFold_cons, xorFold_nil, Nat.xor_assoc, Nat.xor_comm, xor_left_comm,
      Nat.xor_self, Nat.xor_zero, Nat.zero_xor, xor_cancel_left]
  · intro w hw
    rw [initHash_decomp, foldl_xor_shift, initHash_decomp,
      handsXor_set zt hands hlen p c hplt hc, xorFold_append]
    have hw4 : (w + List.length ([] : List (Nat × Nat))) % 4 = w := by
      simp [Nat.mod_eq_of_lt hw]
    rw [hw4, hp]
    simp [xorFold_cons, xorFold_nil, Nat.xor_assoc, Nat.xor_comm, xor_left_comm,
      Nat.xor_self, Nat.xor_zero, Nat.zero_xor, xor_cancel_left]


/-- Witness for C9: one-card hands, empty trick, starter 2 playing card 18,
evaluated on the literal key table. -/
theorem c9_incremental_hash_witness :
    ((2 : Nat) = (2 + ([] : List (Nat × Nat)).length) % 4 ∧
      (18 : Nat) ∈ toCards (([32, 512, 262144, 134217728] : List Nat).getD 2 0)) ∧
    initHash ZobristLit (([32, 512, 262144, 134217728] : List Nat).set 2
        (csRemove (([32, 512, 262144, 134217728] : List Nat).getD 2 0) 18))
        ([] ++ [(2, 18)]) 2 =
      initHash ZobristLit [32, 512, 262144, 134217728] [] 2 ^^^ zhand ZobristLit 2 18 ^^^
        zturn ZobristLit 2 ^^^ ztrick ZobristLit 18 ^^^ zturn ZobristLit ((2 + 1) % 4) :=
  ⟨⟨by decide, by decide⟩,
    (c9_incremental_hash ZobristLit [32, 512, 262144, 134217728] [] 2 2 18 rfl (by decide)
      (by decide)).1⟩

/-- Point values are non-negative. -/
theorem points_nonneg (c trump : Nat) : 0 ≤ points c trump := by
  have ht : ∀ r < 8, 0 ≤ POINTS_TRUMP.getD r 0 := by decide
  have hn : ∀ r < 8, 0 ≤ POINTS_NO_TRUMP.getD r 0 := by decide
  unfold points
  split
  · exact ht (c % 8) (Nat.mod_lt _ (by norm_num))
  · exact hn (c % 8) (Nat.mod_lt _ (by norm_num))

/-- A sum fold from an arbitrary accumulator shifts out of the fold. -/
theorem foldl_add_shift {α : Type} (f : α → Int) (l : List α) (a : Int) :
    l.foldl (fun b x => b + f x) a = a + (l.map f).sum := by
  induction l generalizing a with
  | nil => simp
  | cons x xs ih =>
    simp only [List.foldl_cons, List.map_cons, List.sum_cons]
    rw [ih (a + f x)]
    ring

/-- `trickPoints` as a list sum. -/
theorem trickPoints_eq_sum (trick : List (Nat × Nat)) (trump : Nat) :
    trickPoints trick trump = (trick.map fun pc => points pc.2 trump).sum := by
  simp [trickPoints, foldl_add_shift]

/-- Trick points are non-negative. -/
theorem trickPoints_nonneg (trick : List (Nat × Nat)) (trump : Nat) :
    0 ≤ trickPoints trick trump := by
  rw [trickPoints_eq_sum]
  apply List.sum_nonneg
  intro x hx
  simp only [List.mem_map] at hx
  obtain ⟨pc, -, rfl⟩ := hx
  exact points_nonneg _ _

/-- Trick points of an extended trick. -/
theorem trickPoints_append (trick : List (Nat × Nat)) (pc : Nat × Nat) (trump : Nat) :
    trickPoints (trick ++ [pc]) trump = trickPoints trick trump + points pc.2 trump := by
  simp [trickPoints_eq_sum]

/-- Mask points are non-negative. -/
theorem maskPoints_nonneg (m trump : Nat) : 0 ≤ maskPoints m trump := by
  apply List.sum_nonneg
  intro x hx
  simp only [List.mem_map] at hx
  obtain ⟨c, -, rfl⟩ := hx
  exact points_nonneg _ _

/-- Removing a card removes its points. -/
theorem maskPoints_remove {m c : Nat} (trump : Nat) (h : c ∈ toCards m) :
    maskPoints (csRemove m c) trump = maskPoints m trump - points c trump := by
  unfold maskPoints
  rw [toCards_csRemove]
  have hperm : List.Perm (toCards m) (c :: (toCards m).erase c) := List.perm_cons_erase h
  have := (hperm.map fun x => points x trump).sum_eq
  simp only [List.map_cons, List.sum_cons] at this
  rw [this]
  ring

/-- Removing a card shrinks the hand by one. -/
theorem csSize_remove {m c : Nat} (h : c ∈ toCards m) :
    csSize (csRemove m c) + 1 = csSize m := by
  unfold csSize
  rw [toCards_csRemove, List.length_erase_of_mem h]
  have : 0 < (toCards m).length := List.length_pos.2 (List.ne_nil_of_mem h)
  omega

/-- `getD` after `set` at the written index. -/
theorem getD_set_self (l : List Nat) (p x : Nat) (hp : p < l.length) :
    (l.set p x).getD p 0 = x := by
  induction l generalizing p with
  | nil => simp at hp
  | cons a as ih =>
    cases p with
    | zero => rfl
    | succ q => exact ih q (by simpa using hp)

/-- `getD` after `set` at another index. -/
theorem getD_set_other (l : List Nat) (p q x : Nat) (h : p ≠ q) :
    (l.set p x).getD q 0 = l.getD q 0 := by
  induction l generalizing p q with
  | nil => simp
  | cons a as ih =>
    cases p with
    | zero =>
      cases q with
      | zero => exact absurd rfl h
      | succ r => rfl
    | succ p' =>
      cases q with
      | zero => rfl
      | succ r => exact ih p' r (by omega)


/-- `handsPoints` on a four-hand list. -/
theorem handsPoints_expand (h0 h1 h2 h3 : Nat) (trump : Nat) :
    handsPoints [h0, h1, h2, h3] trump =
      maskPoints h0 trump + maskPoints h1 trump + maskPoints h2 trump +
        maskPoints h3 trump := by
  simp [handsPoints, show List.range 4 = [0, 1, 2, 3] from rfl]

/-- Hand points are non-negative. -/
theorem handsPoints_nonneg (hands : List Nat) (trump : Nat) :
    0 ≤ handsPoints hands trump := by
  unfold handsPoints
  rw [foldl_add_shift]
  simp only [Int.zero_add]
  apply List.sum_nonneg
  intro x hx
  simp only [List.mem_map] at hx
  obtain ⟨p, -, rfl⟩ := hx
  exact maskPoints_nonneg _ _

/-- Removing a card from one hand removes its points from the total. -/
theorem handsPoints_set_remove (hands : List Nat) (hlen : hands.length = 4)
    (p c : Nat) (hp : p < 4) (hc : c ∈ toCards (hands.getD p 0)) (trump : Nat) :
    handsPoints (hands.set p (csRemove (hands.getD p 0) c)) trump =
      handsPoints hands trump - points c trump := by
  match hands, hlen with
  | [a0, a1, a2, a3], _ =>
    interval_cases p <;>
      simp only [List.getD_cons_zero, List.getD_cons_succ] at hc <;>
      simp only [List.set, List.getD_cons_zero, List.getD_cons_succ, handsPoints_expand,
        maskPoints_remove trump hc] <;> ring

/-- The state bound is non-negative when the scores are. -/
theorem stateBound_nonneg (hands : List Nat) (trick : List (Nat × Nat)) (trump : Nat)
    (ns ew : Int) (hns : 0 ≤ ns) (hew : 0 ≤ ew) :
    0 ≤ stateBound hands trick trump ns ew := by
  unfold stateBound
  have h1 := handsPoints_nonneg hands trump
  have h2 := trickPoints_nonneg trick trump
  split <;> omega

/-- Every generated move is a card of the hand. -/
theorem mem_movegen_subset {hand trump : Nat} {trick : List (Nat × Nat)} {c : Nat}
    (h : c ∈ generate_legal_moves hand trick trump) : c ∈ toCards hand := by
  by_cases h0 : hand = 0
  · simp [generate_legal_moves, h0] at h
  · cases trick with
    | nil => simpa [generate_legal_moves, h0] using h
    | cons pc0 rest =>
      simp only [generate_legal_moves, if_neg h0] at h
      split at h
      · split at h
        · split at h
          · exact (List.mem_filter.1 (List.mem_filter.1 h).1).1
          · exact (List.mem_filter.1 h).1
        · exact (List.mem_filter.1 h).1
      · split at h
        · split at h
          · exact (List.mem_filter.1 (List.mem_filter.1 h).1).1
          · exact (List.mem_filter.1 h).1
        · exact h

/-- A non-empty hand always has a legal move. -/
theorem movegen_nonempty {hand trump : Nat} {trick : List (Nat × Nat)}
    (h : toCards hand ≠ []) : generate_legal_moves hand trick trump ≠ [] := by
  have h0 : hand ≠ 0 := by
    intro h0
    apply h
    rw [h0]
    decide
  cases trick with
  | nil => simpa [generate_legal_moves, h0] using h
  | cons pc0 rest =>
    simp only [generate_legal_moves, if_neg h0]
    split
    · split
      · split
        · assumption
        · assumption
      · assumption
    · split
      · split
        · assumption
        · assumption
      · exact h

/-- Stable descending insertion permutes. -/
theorem insertDesc_perm (x : Int × Nat) (l : List (Int × Nat)) :
    List.Perm (insertDesc x l) (x :: l) := by
  induction l with
  | nil => exact List.Perm.refl _
  | cons y ys ih =>
    unfold insertDesc
    split
    · exact List.Perm.refl _
    · exact (List.Perm.cons y ih).trans (List.Perm.swap x y ys)

/-- Insertion-sort folding permutes. -/
theorem foldl_insertDesc_perm (l acc : List (Int × Nat)) :
    List.Perm (l.foldl (fun a x => insertDesc x a) acc) (l ++ acc) := by
  induction l generalizing acc with
  | nil => simp
  | cons x xs ih =>
    simp only [List.foldl_cons, List.cons_append]
    exact (ih (insertDesc x acc)).trans
      (((insertDesc_perm x acc).append_left xs).trans List.perm_middle)

/-- Move ordering permutes the moves. -/
theorem sortMovesDesc_perm (trump : Nat) (moves : List Nat) :
    List.Perm (sortMovesDesc trump moves) moves := by
  unfold sortMovesDesc
  have h := (foldl_insertDesc_perm (moves.map fun c => (strength c trump, c)) []).map
    fun sc : Int × Nat => sc.2
  simp only [List.append_nil, List.map_map] at h
  refine h.trans ?_
  have : (fun sc : Int × Nat => sc.2) ∘ (fun c => (strength c trump, c)) = id := rfl
  rw [this, List.map_id]


/-- A 32-bit mask with no cards is zero. -/
theorem mask_zero_of_csSize_zero {m : Nat} (hm : m < 2 ^ 32) (h : csSize m = 0) : m = 0 := by
  unfold csSize toCards at h
  rw [List.length_eq_zero] at h
  rw [List.filter_eq_nil_iff] at h
  apply Nat.eq_of_testBit_eq
  intro i
  rw [Nat.zero_testBit]
  by_cases hi : i < 32
  · simpa using h i (List.mem_range.2 hi)
  · exact Nat.testBit_eq_false_of_lt (lt_of_lt_of_le hm (Nat.pow_le_pow_right (by norm_num) (by omega)))

/-- The player to move has not yet played in the current trick. -/
theorem player_not_in_played (starter len : Nat) (hlen : len ≤ 3) :
    ¬((starter + len) % 4 ∈ (List.range len).map fun j => (starter + j) % 4) := by
  simp only [List.mem_map, List.mem_range]
  rintro ⟨j, hj, heq⟩
  omega

/-- After three plays, every player other than the fourth has played. -/
theorem all_players_played (starter p : Nat) (hp : p < 4) (hne : p ≠ (starter + 3) % 4) :
    p ∈ (List.range 3).map fun j => (starter + j) % 4 := by
  simp only [List.mem_map, List.mem_range]
  refine ⟨(p + 4 - starter % 4) % 4, by omega, by omega⟩

/-- The search invariant is preserved by a mid-trick play. -/
theorem inv_play {hands : List Nat} {trick : List (Nat × Nat)} {starter : Nat} {ns ew : Int}
    (inv : SearchInv hands trick starter ns ew) (hlen2 : trick.length ≤ 2)
    {c : Nat} (hc : c ∈ toCards (hands.getD ((starter + trick.length) % 4) 0)) :
    SearchInv (hands.set ((starter + trick.length) % 4)
        (csRemove (hands.getD ((starter + trick.length) % 4) 0) c))
      (trick ++ [((starter + trick.length) % 4, c)]) starter ns ew := by
  obtain ⟨h4, hm32, hlen3, hpat, hns, hew, n, hn8, hsz⟩ := inv
  have hplt : (starter + trick.length) % 4 < 4 := Nat.mod_lt _ (by norm_num)
  have hPnp : ¬((starter + trick.length) % 4 ∈ trick.map Prod.fst) := by
    rw [hpat]
    exact player_not_in_played starter trick.length hlen3
  refine ⟨by simpa using h4, ?_, by simp; omega, ?_, hns, hew, n, hn8, ?_⟩
  · intro p hp
    by_cases hpP : p = (starter + trick.length) % 4
    · subst hpP
      rw [getD_set_self _ _ _ (h4 ▸ hplt)]
      exact lt_of_le_of_lt (Nat.and_le_left) (hm32 _ hplt)
    · rw [getD_set_other _ _ _ _ (fun he => hpP he.symm)]
      exact hm32 p hp
  · simp only [List.map_append, List.map_cons, List.map_nil, List.length_append,
      List.length_cons, List.length_nil]
    rw [hpat, List.range_succ, List.map_append]
    simp
  · intro p hp
    have hmem : (p ∈ (trick ++ [((starter + trick.length) % 4, c)]).map Prod.fst) ↔
        (p ∈ trick.map Prod.fst ∨ p = (starter + trick.length) % 4) := by
      simp [List.mem_append]
    by_cases hpP : p = (starter + trick.length) % 4
    · subst hpP
      rw [getD_set_self _ _ _ (h4 ▸ hplt)]
      rw [if_pos (hmem.2 (Or.inr rfl))]
      have hrm := csSize_remove hc
      have hold := hsz _ hplt
      rw [if_neg hPnp] at hold
      omega
    · rw [getD_set_other _ _ _ _ (fun he => hpP he.symm)]
      have : (p ∈ (trick ++ [((starter + trick.length) % 4, c)]).map Prod.fst) ↔
          p ∈ trick.map Prod.fst := by
        rw [hmem]
        simp [hpP]
      rw [if_congr this rfl rfl]
      exact hsz p hp

/-- The search invariant is preserved by a trick-completing play. -/
theorem inv_complete {hands : List Nat} {trick : List (Nat × Nat)} {starter : Nat}
    {ns ew : Int} (inv : SearchInv hands trick starter ns ew) (hlen3 : trick.length = 3)
    {c : Nat} (hc : c ∈ toCards (hands.getD ((starter + trick.length) % 4) 0))
    (w : Nat) {nns new : Int} (hnns : 0 ≤ nns) (hnew : 0 ≤ new) :
    SearchInv (hands.set ((starter + trick.length) % 4)
        (csRemove (hands.getD ((starter + trick.length) % 4) 0) c)) [] w nns new := by
  obtain ⟨h4, hm32, hlenle, hpat, hns, hew, n, hn8, hsz⟩ := inv
  have hplt : (starter + trick.length) % 4 < 4 := Nat.mod_lt _ (by norm_num)
  have hPnp : ¬((starter + trick.length) % 4 ∈ trick.map Prod.fst) := by
    rw [hpat]
    exact player_not_in_played starter trick.length hlenle
  have hszP : csSize (hands.getD ((starter + trick.length) % 4) 0) = n := by
    have := hsz _ hplt
    rw [if_neg hPnp] at this
    omega
  have hn1 : 1 ≤ n := by
    have : 0 < (toCards (hands.getD ((starter + trick.length) % 4) 0)).length :=
      List.length_pos.2 (List.ne_nil_of_mem hc)
    unfold csSize at hszP
    omega
  refine ⟨by simpa using h4, ?_, by simp, by simp, hnns, hnew, n - 1, by omega, ?_⟩
  · intro p hp
    by_cases hpP : p = (starter + trick.length) % 4
    · subst hpP
      rw [getD_set_self _ _ _ (h4 ▸ hplt)]
      exact lt_of_le_of_lt (Nat.and_le_left) (hm32 _ hplt)
    · rw [getD_set_other _ _ _ _ (fun he => hpP he.symm)]
      exact hm32 p hp
  · intro p hp
    simp only [List.map_nil, List.not_mem_nil, if_neg, if_false]
    by_cases hpP : p = (starter + trick.length) % 4
    · subst hpP
      rw [getD_set_self _ _ _ (h4 ▸ hplt)]
      have hrm := csSize_remove hc
      omega
    · rw [getD_set_other _ _ _ _ (fun he => hpP he.symm)]
      have hpm : p ∈ trick.map Prod.fst := by
        rw [hpat, hlen3]
        apply all_players_played starter p hp
        intro he
        apply hpP
        rw [he, hlen3]
      have := hsz p hp
      rw [if_pos hpm] at this
      omega


/-- Empty hands carry no points. -/
theorem handsPoints_eq_zero {hands : List Nat} (trump : Nat)
    (h : ∀ p < 4, hands.getD p 0 = 0) : handsPoints hands trump = 0 := by
  simp only [handsPoints, show List.range 4 = [0, 1, 2, 3] from rfl, List.foldl_cons,
    List.foldl_nil]
  rw [h 0 (by norm_num), h 1 (by norm_num), h 2 (by norm_num), h 3 (by norm_num)]
  rfl

/-- A mid-trick play conserves the state bound. -/
theorem stateBound_play {hands : List Nat} {trick : List (Nat × Nat)} {starter : Nat}
    {ns ew : Int} (h4 : hands.length = 4) (hnb : ¬(hands.getD 0 0 = 0 ∧ trick = []))
    {c : Nat} (hc : c ∈ toCards (hands.getD ((starter + trick.length) % 4) 0)) (trump : Nat) :
    stateBound (hands.set ((starter + trick.length) % 4)
        (csRemove (hands.getD ((starter + trick.length) % 4) 0) c))
      (trick ++ [((starter + trick.length) % 4, c)]) trump ns ew =
      stateBound hands trick trump ns ew := by
  have hplt : (starter + trick.length) % 4 < 4 := Nat.mod_lt _ (by norm_num)
  unfold stateBound
  rw [handsPoints_set_remove hands h4 _ c hplt hc trump, trickPoints_append]
  rw [if_neg hnb, if_neg (by simp)]
  ring

/-- If player 0 is empty after the completing play, every hand is. -/
theorem all_empty_after {hands : List Nat} {trick : List (Nat × Nat)} {starter : Nat}
    {ns ew : Int} (inv : SearchInv hands trick starter ns ew) (hlen3 : trick.length = 3)
    {c : Nat} (hc : c ∈ toCards (hands.getD ((starter + trick.length) % 4) 0))
    (hz : (hands.set ((starter + trick.length) % 4)
        (csRemove (hands.getD ((starter + trick.length) % 4) 0) c)).getD 0 0 = 0) :
    ∀ p < 4, (hands.set ((starter + trick.length) % 4)
        (csRemove (hands.getD ((starter + trick.length) % 4) 0) c)).getD p 0 = 0 := by
  obtain ⟨-, -, -, -, -, -, n', -, hsz'⟩ := inv_complete inv hlen3 hc 0
    (le_refl (0 : Int)) (le_refl (0 : Int))
  have h0 := hsz' 0 (by norm_num)
  simp only [List.map_nil, List.not_mem_nil, if_false] at h0
  rw [hz] at h0
  have hn'0 : n' = 0 := by
    have hz0 : csSize 0 = 0 := by decide
    omega
  obtain ⟨-, hm32', -, -, -, -, n2, -, hsz2⟩ := inv_complete inv hlen3 hc 0
    (le_refl (0 : Int)) (le_refl (0 : Int))
  intro p hp
  apply mask_zero_of_csSize_zero (hm32' p hp)
  have hp2 := hsz' p hp
  simp only [List.map_nil, List.not_mem_nil, if_false] at hp2
  omega

/-- The empty trick has no points. -/
theorem trickPoints_nil (trump : Nat) : trickPoints [] trump = 0 := rfl

/-- A trick-completing play does not increase the state bound. -/
theorem stateBound_complete {hands : List Nat} {trick : List (Nat × Nat)} {starter : Nat}
    {ns ew : Int} (inv : SearchInv hands trick starter ns ew) (hlen3 : trick.length = 3)
    {c : Nat} (hc : c ∈ toCards (hands.getD ((starter + trick.length) % 4) 0))
    (trump w : Nat) :
    stateBound (hands.set ((starter + trick.length) % 4)
        (csRemove (hands.getD ((starter + trick.length) % 4) 0) c)) [] trump
      (ns + (if w % 2 = 0 then
        (if (hands.set ((starter + trick.length) % 4)
              (csRemove (hands.getD ((starter + trick.length) % 4) 0) c)).getD 0 0 = 0 then
          trickPoints (trick ++ [((starter + trick.length) % 4, c)]) trump + 10
        else trickPoints (trick ++ [((starter + trick.length) % 4, c)]) trump) else 0))
      (ew + (if w % 2 = 1 then
        (if (hands.set ((starter + trick.length) % 4)
              (csRemove (hands.getD ((starter + trick.length) % 4) 0) c)).getD 0 0 = 0 then
          trickPoints (trick ++ [((starter + trick.length) % 4, c)]) trump + 10
        else trickPoints (trick ++ [((starter + trick.length) % 4, c)]) trump) else 0)) ≤
      stateBound hands trick trump ns ew := by
  have h4 : hands.length = 4 := inv.1
  have hplt : (starter + trick.length) % 4 < 4 := Nat.mod_lt _ (by norm_num)
  have hhp : handsPoints (hands.set ((starter + trick.length) % 4)
      (csRemove (hands.getD ((starter + trick.length) % 4) 0) c)) trump =
      handsPoints hands trump - points c trump :=
    handsPoints_set_remove hands h4 _ c hplt hc trump
  have htp : trickPoints (trick ++ [((starter + trick.length) % 4, c)]) trump =
      trickPoints trick trump + points c trump := trickPoints_append _ _ _
  have htne : trick ≠ [] := by
    intro he
    rw [he] at hlen3
    simp at hlen3
  have hw2 : w % 2 = 0 ∨ w % 2 = 1 := by omega
  have hslackp : ¬(hands.getD 0 0 = 0 ∧ trick = []) := by
    rintro ⟨-, he⟩
    exact htne he
  rcases hw2 with h2 | h2
  · rw [if_pos h2, if_neg (show ¬(w % 2 = 1) by omega)]
    by_cases hz : (hands.set ((starter + trick.length) % 4)
        (csRemove (hands.getD ((starter + trick.length) % 4) 0) c)).getD 0 0 = 0
    · have hz' := handsPoints_eq_zero trump (all_empty_after inv hlen3 hc hz)
      rw [if_pos hz]
      unfold stateBound
      rw [if_pos ⟨hz, rfl⟩, if_neg hslackp, trickPoints_nil]
      linarith [hhp, htp, hz']
    · rw [if_neg hz]
      unfold stateBound
      rw [if_neg (by rintro ⟨h1, -⟩; exact hz h1), if_neg hslackp, trickPoints_nil]
      linarith [hhp, htp]
  · rw [if_neg (show ¬(w % 2 = 0) by omega), if_pos h2]
    by_cases hz : (hands.set ((starter + trick.length) % 4)
        (csRemove (hands.getD ((starter + trick.length) % 4) 0) c)).getD 0 0 = 0
    · have hz' := handsPoints_eq_zero trump (all_empty_after inv hlen3 hc hz)
      rw [if_pos hz]
      unfold stateBound
      rw [if_pos ⟨hz, rfl⟩, if_neg hslackp, trickPoints_nil]
      linarith [hhp, htp, hz']
    · rw [if_neg hz]
      unfold stateBound
      rw [if_neg (by rintro ⟨h1, -⟩; exact hz h1), if_neg hslackp, trickPoints_nil]
      linarith [hhp, htp]


/-- In a non-terminal invariant state, the player to move holds a card. -/
theorem hand_nonempty {hands : List Nat} {trick : List (Nat × Nat)} {starter : Nat}
    {ns ew : Int} (inv : SearchInv hands trick starter ns ew)
    (hnb : ¬(hands.getD 0 0 = 0 ∧ trick = [])) :
    toCards (hands.getD ((starter + trick.length) % 4) 0) ≠ [] := by
  obtain ⟨h4, hm32, hlen3, hpat, -, -, n, -, hsz⟩ := inv
  have hplt : (starter + trick.length) % 4 < 4 := Nat.mod_lt _ (by norm_num)
  have hPnp : ¬((starter + trick.length) % 4 ∈ trick.map Prod.fst) := by
    rw [hpat]
    exact player_not_in_played starter trick.length hlen3
  have hszP : csSize (hands.getD ((starter + trick.length) % 4) 0) = n := by
    have := hsz _ hplt
    rw [if_neg hPnp] at this
    omega
  have hn1 : 1 ≤ n := by
    cases trick with
    | nil =>
      have h0 : hands.getD 0 0 ≠ 0 := fun h => hnb ⟨h, rfl⟩
      have hsz0 := hsz 0 (by norm_num)
      rw [if_neg (by simp)] at hsz0
      have : csSize (hands.getD 0 0) ≠ 0 :=
        fun hzz => h0 (mask_zero_of_csSize_zero (hm32 0 (by norm_num)) hzz)
      omega
    | cons t ts =>
      have hh := congrArg List.head? hpat
      rw [show (t :: ts).length = ts.length + 1 from rfl, List.range_succ_eq_map] at hh
      simp only [List.map_cons, List.head?_cons, Option.some.injEq] at hh
      have hp1 : t.1 < 4 := by
        rw [hh]
        exact Nat.mod_lt _ (by norm_num)
      have hmem : t.1 ∈ ((t :: ts).map Prod.fst) := by simp
      have hszh := hsz t.1 hp1
      rw [if_pos hmem] at hszh
      omega
  intro he
  unfold csSize at hszP
  rw [he] at hszP
  simp at hszP
  omega



/-- One search step keeps the value and every stored table value within
`[-99999, B]`, given that the recursive search does. -/
theorem abStep_bound (zt : ZTable) (trump : Nat) (B : Int)
    (rec : List Nat → List (Nat × Nat) → Nat → Int → Int → Int → Int → Nat → TT → Int × TT)
    (hrec : ∀ hands trick starter ns ew alpha beta hash tt,
      SearchInv hands trick starter ns ew →
      stateBound hands trick trump ns ew ≤ B →
      (∀ j, -99999 ≤ (tt j).2 ∧ (tt j).2 ≤ B) →
      (-99999 ≤ (rec hands trick starter ns ew alpha beta hash tt).1 ∧
        (rec hands trick starter ns ew alpha beta hash tt).1 ≤ B) ∧
      (∀ j, -99999 ≤ ((rec hands trick starter ns ew alpha beta hash tt).2 j).2 ∧
        ((rec hands trick starter ns ew alpha beta hash tt).2 j).2 ≤ B))
    {hands : List Nat} {trick : List (Nat × Nat)} {starter : Nat} {ns ew : Int}
    (inv : SearchInv hands trick starter ns ew)
    (hsb : stateBound hands trick trump ns ew ≤ B)
    {c : Nat} (hcmem : c ∈ toCards (hands.getD ((starter + trick.length) % 4) 0))
    (hash : Nat) (alpha beta : Int) (tt : TT)
    (htt : ∀ j, -99999 ≤ (tt j).2 ∧ (tt j).2 ≤ B) :
    (-99999 ≤ (abStep zt trump rec ((starter + trick.length) % 4) hands trick starter
        ns ew hash c alpha beta tt).1 ∧
      (abStep zt trump rec ((starter + trick.length) % 4) hands trick starter
        ns ew hash c alpha beta tt).1 ≤ B) ∧
    (∀ j, -99999 ≤ ((abStep zt trump rec ((starter + trick.length) % 4) hands trick starter
        ns ew hash c alpha beta tt).2 j).2 ∧
      ((abStep zt trump rec ((starter + trick.length) % 4) hands trick starter
        ns ew hash c alpha beta tt).2 j).2 ≤ B) := by
  have hns : 0 ≤ ns := inv.2.2.2.2.1
  have hew : 0 ≤ ew := inv.2.2.2.2.2.1
  unfold abStep
  by_cases hlen4 : (trick ++ [((starter + trick.length) % 4, c)]).length = 4
  · have hlen3 : trick.length = 3 := by simpa using hlen4
    simp only [hlen4, if_pos, if_true, reduceIte]
    have hpts0 : (0 : Int) ≤ (if (hands.set ((starter + trick.length) % 4)
        (csRemove (hands.getD ((starter + trick.length) % 4) 0) c)).getD 0 0 = 0 then
        trickPoints (trick ++ [((starter + trick.length) % 4, c)]) trump + 10
      else trickPoints (trick ++ [((starter + trick.length) % 4, c)]) trump) := by
      split <;>
        linarith [trickPoints_nonneg (trick ++ [((starter + trick.length) % 4, c)]) trump]
    apply hrec
    · apply inv_complete inv hlen3 hcmem
      · split <;> linarith
      · split <;> linarith
    · exact le_trans (stateBound_complete inv hlen3 hcmem trump _) hsb
    · exact htt
  · have hlen2 : trick.length ≤ 2 := by
      have := inv.2.2.1
      simp only [List.length_append, List.length_cons, List.length_nil] at hlen4
      omega
    have hnb : ¬(hands.getD 0 0 = 0 ∧ trick = []) := by
      rintro ⟨h0, he⟩
      subst he
      obtain ⟨-, -, -, -, -, -, n, -, hsz⟩ := inv
      have h0sz := hsz 0 (by norm_num)
      have hplt : (starter + ([] : List (Nat × Nat)).length) % 4 < 4 :=
        Nat.mod_lt _ (by norm_num)
      have hpsz := hsz _ hplt
      simp only [List.map_nil, List.not_mem_nil, if_false] at h0sz hpsz
      rw [h0] at h0sz
      have hz0 : csSize 0 = 0 := by decide
      have hlen0 : (toCards (hands.getD ((starter + ([] : List (Nat × Nat)).length) % 4) 0)).length = 0 := by
        unfold csSize at hpsz
        omega
      rw [List.length_eq_zero] at hlen0
      rw [hlen0] at hcmem
      exact List.not_mem_nil c hcmem
    simp only [hlen4, if_neg, if_false, reduceIte]
    apply hrec
    · exact inv_play inv hlen2 hcmem
    · rw [stateBound_play inv.1 hnb hcmem trump]
      exact hsb
    · exact htt


/-- The move loop keeps the running best value and the table within
`[-99999, B]`. -/
theorem abLoop_bound (zt : ZTable) (trump team : Nat) (B : Int)
    (rec : List Nat → List (Nat × Nat) → Nat → Int → Int → Int → Int → Nat → TT → Int × TT)
    (hrec : ∀ hands trick starter ns ew alpha beta hash tt,
      SearchInv hands trick starter ns ew →
      stateBound hands trick trump ns ew ≤ B →
      (∀ j, -99999 ≤ (tt j).2 ∧ (tt j).2 ≤ B) →
      (-99999 ≤ (rec hands trick starter ns ew alpha beta hash tt).1 ∧
        (rec hands trick starter ns ew alpha beta hash tt).1 ≤ B) ∧
      (∀ j, -99999 ≤ ((rec hands trick starter ns ew alpha beta hash tt).2 j).2 ∧
        ((rec hands trick starter ns ew alpha beta hash tt).2 j).2 ≤ B)) :
    ∀ (moves : List Nat) (isAtt : Bool) (hands : List Nat) (trick : List (Nat × Nat))
      (starter : Nat) (ns ew : Int) (hash : Nat) (alpha beta best : Int) (tt : TT),
      SearchInv hands trick starter ns ew →
      stateBound hands trick trump ns ew ≤ B →
      (∀ x ∈ moves, x ∈ toCards (hands.getD ((starter + trick.length) % 4) 0)) →
      (∀ j, -99999 ≤ (tt j).2 ∧ (tt j).2 ≤ B) →
      -99999 ≤ best →
      (best ≤ B ∨ (isAtt = false ∧ moves ≠ [])) →
      (-99999 ≤ (abLoop zt trump team rec ((starter + trick.length) % 4) isAtt hands trick
          starter ns ew hash moves alpha beta best tt).1 ∧
        (abLoop zt trump team rec ((starter + trick.length) % 4) isAtt hands trick
          starter ns ew hash moves alpha beta best tt).1 ≤ B) ∧
      (∀ j, -99999 ≤ ((abLoop zt trump team rec ((starter + trick.length) % 4) isAtt hands
          trick starter ns ew hash moves alpha beta best tt).2 j).2 ∧
        ((abLoop zt trump team rec ((starter + trick.length) % 4) isAtt hands trick
          starter ns ew hash moves alpha beta best tt).2 j).2 ≤ B) := by
  intro moves
  induction moves with
  | nil =>
    intro isAtt hands trick starter ns ew hash alpha beta best tt inv hsb hmv htt hbl hbr
    refine ⟨⟨hbl, ?_⟩, htt⟩
    rcases hbr with hbr | ⟨-, hne⟩
    · exact hbr
    · exact absurd rfl hne
  | cons c rest ih =>
    intro isAtt hands trick starter ns ew hash alpha beta best tt inv hsb hmv htt hbl hbr
    have hcmem : c ∈ toCards (hands.getD ((starter + trick.length) % 4) 0) :=
      hmv c (List.mem_cons_self c rest)
    have hrest : ∀ x ∈ rest, x ∈ toCards (hands.getD ((starter + trick.length) % 4) 0) :=
      fun x hx => hmv x (List.mem_cons_of_mem c hx)
    have hr := abStep_bound zt trump B rec hrec inv hsb hcmem hash alpha beta tt htt
    simp only [abLoop]
    cases isAtt with
    | true =>
      have hbB : best ≤ B := by
        rcases hbr with hbr | ⟨hfa, -⟩
        · exact hbr
        · exact absurd hfa (by simp)
      have hbl' : -99999 ≤ (if best < (abStep zt trump rec ((starter + trick.length) % 4)
          hands trick starter ns ew hash c alpha beta tt).1 then
          (abStep zt trump rec ((starter + trick.length) % 4) hands trick starter ns ew
            hash c alpha beta tt).1 else best) := by
        split
        · exact hr.1.1
        · exact hbl
      have hbB' : (if best < (abStep zt trump rec ((starter + trick.length) % 4)
          hands trick starter ns ew hash c alpha beta tt).1 then
          (abStep zt trump rec ((starter + trick.length) % 4) hands trick starter ns ew
            hash c alpha beta tt).1 else best) ≤ B := by
        split
        · exact hr.1.2
        · exact hbB
      simp only [if_true, if_pos, reduceIte]
      by_cases hcut : beta ≤ max alpha (if best < (abStep zt trump rec
          ((starter + trick.length) % 4) hands trick starter ns ew hash c alpha beta tt).1
          then (abStep zt trump rec ((starter + trick.length) % 4) hands trick starter ns ew
            hash c alpha beta tt).1 else best)
      · rw [if_pos hcut]
        exact ⟨⟨hbl', hbB'⟩, hr.2⟩
      · rw [if_neg hcut]
        exact ih true hands trick starter ns ew hash _ beta _ _ inv hsb hrest hr.2 hbl'
          (Or.inl hbB')
    | false =>
      have hbl' : -99999 ≤ (if (abStep zt trump rec ((starter + trick.length) % 4)
          hands trick starter ns ew hash c alpha beta tt).1 < best then
          (abStep zt trump rec ((starter + trick.length) % 4) hands trick starter ns ew
            hash c alpha beta tt).1 else best) := by
        split
        · exact hr.1.1
        · exact hbl
      have hbB' : (if (abStep zt trump rec ((starter + trick.length) % 4)
          hands trick starter ns ew hash c alpha beta tt).1 < best then
          (abStep zt trump rec ((starter + trick.length) % 4) hands trick starter ns ew
            hash c alpha beta tt).1 else best) ≤ B := by
        split
        · exact hr.1.2
        · next hge =>
          push_neg at hge
          exact le_trans hge hr.1.2
      simp only [if_false, Bool.false_eq_true, reduceIte]
      by_cases hcut : min beta (if (abStep zt trump rec
          ((starter + trick.length) % 4) hands trick starter ns ew hash c alpha beta tt).1
          < best then (abStep zt trump rec ((starter + trick.length) % 4) hands trick starter
            ns ew hash c alpha beta tt).1 else best) ≤ alpha
      · rw [if_pos hcut]
        exact ⟨⟨hbl', hbB'⟩, hr.2⟩
      · rw [if_neg hcut]
        exact ih false hands trick starter ns ew hash alpha _ _ _ inv hsb hrest hr.2 hbl'
          (Or.inl hbB')


/-- `_alpha_beta` keeps its result and the table within `[-99999, B]` for
any `B` dominating the state bound, at every fuel. -/
theorem alphaBeta_bound (zt : ZTable) (trump team : Nat) (B : Int) :
    ∀ (fuel : Nat) (hands : List Nat) (trick : List (Nat × Nat)) (starter : Nat)
      (ns ew alpha beta : Int) (hash : Nat) (tt : TT),
      SearchInv hands trick starter ns ew →
      stateBound hands trick trump ns ew ≤ B →
      (∀ j, -99999 ≤ (tt j).2 ∧ (tt j).2 ≤ B) →
      (-99999 ≤ (alphaBeta zt trump team fuel hands trick starter ns ew alpha beta hash tt).1 ∧
        (alphaBeta zt trump team fuel hands trick starter ns ew alpha beta hash tt).1 ≤ B) ∧
      (∀ j, -99999 ≤ ((alphaBeta zt trump team fuel hands trick starter ns ew alpha beta
          hash tt).2 j).2 ∧
        ((alphaBeta zt trump team fuel hands trick starter ns ew alpha beta hash tt).2 j).2
          ≤ B) := by
  intro fuel
  induction fuel with
  | zero =>
    intro hands trick starter ns ew alpha beta hash tt inv hsb htt
    have hB0 : (0 : Int) ≤ B :=
      le_trans (stateBound_nonneg hands trick trump ns ew inv.2.2.2.2.1 inv.2.2.2.2.2.1) hsb
    simp only [alphaBeta]
    exact ⟨⟨by norm_num, by linarith⟩, htt⟩
  | succ n ihf =>
    intro hands trick starter ns ew alpha beta hash tt inv hsb htt
    have hns : 0 ≤ ns := inv.2.2.2.2.1
    have hew : 0 ≤ ew := inv.2.2.2.2.2.1
    have hB0 : (0 : Int) ≤ B :=
      le_trans (stateBound_nonneg hands trick trump ns ew hns hew) hsb
    have hsb' : ns ≤ B ∧ ew ≤ B := by
      unfold stateBound at hsb
      have h1 := handsPoints_nonneg hands trump
      have h2 := trickPoints_nonneg trick trump
      constructor <;> [skip; skip] <;> split at hsb <;> linarith
    by_cases hb : hands.getD 0 0 = 0 ∧ trick = []
    · simp only [alphaBeta, if_pos hb]
      refine ⟨⟨?_, ?_⟩, htt⟩
      · split <;> linarith
      · split <;> [exact hsb'.1; exact hsb'.2]
    · by_cases hh : (tt (hash &&& ttMask)).1 = hash
      · simp only [alphaBeta, if_neg hb, if_pos hh]
        exact ⟨htt _, htt⟩
      · simp only [alphaBeta, if_neg hb, if_neg hh]
        set MOVES := generate_legal_moves (hands.getD ((starter + trick.length) % 4) 0)
          trick trump with hMOVES
        set SORTED := (if 1 < MOVES.length then sortMovesDesc trump MOVES else MOVES)
          with hSORTED
        set ATT := ((starter + trick.length) % 4 % 2 == team) with hATT
        have hmv : ∀ x ∈ SORTED, x ∈ toCards (hands.getD ((starter + trick.length) % 4) 0) := by
          intro x hx
          apply @mem_movegen_subset _ trump trick _
          rw [hSORTED] at hx
          split at hx
          · rw [hMOVES] at hx
            exact (sortMovesDesc_perm trump _).mem_iff.1 hx
          · rwa [hMOVES] at hx
        have hsne : SORTED ≠ [] := by
          have hgen : MOVES ≠ [] := by
            rw [hMOVES]
            exact @movegen_nonempty _ trump trick (hand_nonempty inv hb)
          rw [hSORTED]
          split
          · intro he
            apply hgen
            have hl := (sortMovesDesc_perm trump MOVES).length_eq
            rw [he] at hl
            exact List.length_eq_zero.1 hl.symm
          · exact hgen
        have hloop := abLoop_bound zt trump team B (alphaBeta zt trump team n)
          (fun h2 t2 s2 n2 e2 a2 b2 hs2 tt2 i2 sb2 htt2 =>
            ihf h2 t2 s2 n2 e2 a2 b2 hs2 tt2 i2 sb2 htt2)
          SORTED ATT hands trick starter ns ew hash alpha beta
          (if ATT then (-1 : Int) else 9999) tt inv hsb hmv htt
          (by split <;> norm_num) ?hdisj
        case hdisj =>
          cases hAtt : ATT with
          | true => refine Or.inl ?_; rw [if_pos rfl]; linarith
          | false => exact Or.inr ⟨rfl, hsne⟩
        refine ⟨hloop.1, ?_⟩
        intro j
        by_cases hj : j = (hash &&& ttMask)
        · simp only [hj, if_pos, reduceIte]
          exact hloop.1
        · simp only [if_neg hj]
          exact hloop.2 j


/-- The card list of a mask has no duplicates. -/
theorem toCards_nodup (m : Nat) : (toCards m).Nodup := (List.nodup_range 32).filter _

/-- Card ids are below 32. -/
theorem toCards_subset_range (m : Nat) : toCards m ⊆ List.range 32 := by
  intro c hc
  exact List.mem_range.2 (mem_toCards.1 hc).1

/-- Disjoint masks have disjoint card lists. -/
theorem toCards_disjoint {m m' : Nat} (h : m &&& m' = 0) :
    List.Disjoint (toCards m) (toCards m') := by
  intro c hc hc'
  have h1 := (mem_toCards.1 hc).2
  have h2 := (mem_toCards.1 hc').2
  have : (m &&& m').testBit c = true := by
    rw [Nat.testBit_and, h1, h2]
    rfl
  rw [h] at this
  simp [Nat.zero_testBit] at this

/-- The 32 cards carry at most 152 points (exactly 152 when the trump suit
is one of the four playable suits, 120 otherwise). -/
theorem sum_points_range32 (trump : Nat) :
    (((List.range 32).map fun c => points c trump).sum) ≤ 152 := by
  by_cases h : trump < 4
  · interval_cases trump <;> decide
  · have he : ((List.range 32).map fun c => points c trump) =
        ((List.range 32).map fun c => POINTS_NO_TRUMP.getD (c % 8) 0) := by
      apply List.map_congr_left
      intro c hc
      unfold points
      rw [if_neg]
      have hcc : c < 32 := List.mem_range.1 hc
      omega
    rw [he]
    decide

/-- A nonneg-valued sum over a duplicate-free sublist of the deck is at most
the sum over the deck. -/
theorem sum_over_sub_le {L : List Nat} (f : Nat → Int) (hnd : L.Nodup)
    (hsub : L ⊆ List.range 32) (hf : ∀ c, 0 ≤ f c) :
    (L.map f).sum ≤ ((List.range 32).map f).sum := by
  obtain ⟨l, hperm, hsl⟩ := hnd.subperm hsub
  calc (L.map f).sum = (l.map f).sum := ((hperm.map f).sum_eq).symm
    _ ≤ ((List.range 32).map f).sum := by
        apply List.Sublist.sum_le_sum (hsl.map f)
        intro a ha
        obtain ⟨c, -, rfl⟩ := List.mem_map.1 ha
        exact hf c

/-- `maskPoints` as a list sum. -/
theorem maskPoints_eq_sum (m trump : Nat) :
    maskPoints m trump = ((toCards m).map fun c => points c trump).sum := rfl

/-- In a legal state the cards still in play carry at most 152 points. -/
theorem present_points_le_152 {hands : List Nat} {trick : List (Nat × Nat)}
    {starter cp : Nat} {ns ew : Int} (trump : Nat)
    (hleg : LegalState hands trick starter cp ns ew) :
    handsPoints hands trump + trickPoints trick trump ≤ 152 := by
  obtain ⟨⟨h4, -, -, -, -, -, -⟩, -, -, -, hdisj, htk, htnd⟩ := hleg
  match hands, h4 with
  | [h0, h1, h2, h3], _ =>
    have hd01 : h0 &&& h1 = 0 := hdisj 0 (by norm_num) 1 (by norm_num) (by norm_num)
    have hd02 : h0 &&& h2 = 0 := hdisj 0 (by norm_num) 2 (by norm_num) (by norm_num)
    have hd03 : h0 &&& h3 = 0 := hdisj 0 (by norm_num) 3 (by norm_num) (by norm_num)
    have hd12 : h1 &&& h2 = 0 := hdisj 1 (by norm_num) 2 (by norm_num) (by norm_num)
    have hd13 : h1 &&& h3 = 0 := hdisj 1 (by norm_num) 3 (by norm_num) (by norm_num)
    have hd23 : h2 &&& h3 = 0 := hdisj 2 (by norm_num) 3 (by norm_num) (by norm_num)
    have htkd : ∀ p, p < 4 → List.Disjoint (toCards (([h0, h1, h2, h3] : List Nat).getD p 0))
        (trick.map Prod.snd) := by
      intro p hp c hc hc'
      obtain ⟨pc, hpc, rfl⟩ := List.mem_map.1 hc'
      exact absurd (mem_toCards.1 hc).2 (by simpa using (htk pc hpc).2 p hp)
    have htksub : trick.map Prod.snd ⊆ List.range 32 := by
      intro c hc
      obtain ⟨pc, hpc, rfl⟩ := List.mem_map.1 hc
      exact List.mem_range.2 (htk pc hpc).1
    set L := toCards h0 ++ (toCards h1 ++ (toCards h2 ++ (toCards h3 ++ trick.map Prod.snd)))
      with hL
    have hnd : L.Nodup := by
      rw [hL]
      rw [List.nodup_append, List.nodup_append, List.nodup_append, List.nodup_append]
      refine ⟨toCards_nodup h0, ⟨toCards_nodup h1, ⟨toCards_nodup h2,
        ⟨toCards_nodup h3, htnd, htkd 3 (by norm_num)⟩, ?_⟩, ?_⟩, ?_⟩
      · intro c hc hc'
        rcases List.mem_append.1 hc' with hc' | hc'
        · exact toCards_disjoint hd23 hc hc'
        · exact htkd 2 (by norm_num) hc hc'
      · intro c hc hc'
        rcases List.mem_append.1 hc' with hc' | hc'
        · exact toCards_disjoint hd12 hc hc'
        rcases List.mem_append.1 hc' with hc' | hc'
        · exact toCards_disjoint hd13 hc hc'
        · exact htkd 1 (by norm_num) hc hc'
      · intro c hc hc'
        rcases List.mem_append.1 hc' with hc' | hc'
        · exact toCards_disjoint hd01 hc hc'
        rcases List.mem_append.1 hc' with hc' | hc'
        · exact toCards_disjoint hd02 hc hc'
        rcases List.mem_append.1 hc' with hc' | hc'
        · exact toCards_disjoint hd03 hc hc'
        · exact htkd 0 (by norm_num) hc hc'
    have hsub : L ⊆ List.range 32 := by
      rw [hL]
      intro c hc
      rcases List.mem_append.1 hc with hc | hc
      · exact toCards_subset_range h0 hc
      rcases List.mem_append.1 hc with hc | hc
      · exact toCards_subset_range h1 hc
      rcases List.mem_append.1 hc with hc | hc
      · exact toCards_subset_range h2 hc
      rcases List.mem_append.1 hc with hc | hc
      · exact toCards_subset_range h3 hc
      · exact htksub hc
    have hsum : handsPoints [h0, h1, h2, h3] trump + trickPoints trick trump =
        (L.map fun c => points c trump).sum := by
      rw [hL]
      simp only [List.map_append, List.sum_append]
      rw [handsPoints_expand, trickPoints_eq_sum]
      simp only [maskPoints_eq_sum, List.map_map]
      ring_nf
      rfl
    rw [hsum]
    exact le_trans (sum_over_sub_le _ hnd hsub (fun c => points_nonneg c trump))
      (sum_points_range32 trump)


/-- A fresh-solver `solve` on a legal state is bounded by the prior scores
plus 162 below, and by the table sentinel above. -/
theorem solve_le_bound {hands : List Nat} {trick : List (Nat × Nat)} {starter cp : Nat}
    {ns ew : Int} (cs : Nat) (hleg : LegalState hands trick starter cp ns ew) :
    -99999 ≤ (solve ttInit hands cs cp trick starter ns ew).1 ∧
    (solve ttInit hands cs cp trick starter ns ew).1 ≤ ns + ew + 162 := by
  have hinv := hleg.1
  have hns : 0 ≤ ns := hinv.2.2.2.2.1
  have hew : 0 ≤ ew := hinv.2.2.2.2.2.1
  have hsb : stateBound hands trick cs ns ew ≤ ns + ew + 162 := by
    unfold stateBound
    have h152 := present_points_le_152 cs hleg
    split <;> linarith
  have htt0 : ∀ j, -99999 ≤ ((ttInit : TT) j).2 ∧ ((ttInit : TT) j).2 ≤ ns + ew + 162 := by
    intro j
    have he : ((ttInit : TT) j).2 = -99999 := rfl
    rw [he]
    constructor
    · exact le_refl _
    · linarith
  exact (alphaBeta_bound Zobrist cs (cp % 2) (ns + ew + 162) 33 hands trick starter ns ew
    (-1) 163 (initHash Zobrist hands trick starter) ttInit hinv hsb htt0).1

/-- C7 (amended) — For every legal starting state, a fresh-solver `solve`
returns at least `-99999` (the sentinel of untouched transposition slots) and
at most `ns_points + ew_points + 162`; with zero prior scores the result is
at most 162, below the claimed maximum 272 (the searcher awards no capot or
belote bonus). -/
theorem c7_solve_bounds {hands : List Nat} {trick : List (Nat × Nat)} {starter cp : Nat}
    {ns ew : Int} (cs : Nat) (hleg : LegalState hands trick starter cp ns ew) :
    -99999 ≤ (solve ttInit hands cs cp trick starter ns ew).1 ∧
    (solve ttInit hands cs cp trick starter ns ew).1 ≤ ns + ew + 162 :=
  solve_le_bound cs hleg

/-- Witness for C7: the one-trick endgame `{AD} / {7H} / {7S} / {8S}` with
zero scores is legal and its Hearts value is bounded. -/
theorem c7_solve_bounds_witness :
    LegalState [32768, 1, 16777216, 33554432] [] 0 0 0 0 ∧
    (-99999 ≤ (solve ttInit [32768, 1, 16777216, 33554432] 0 0 [] 0 0 0).1 ∧
      (solve ttInit [32768, 1, 16777216, 33554432] 0 0 [] 0 0 0).1 ≤ 0 + 0 + 162) :=
  ⟨by decide, c7_solve_bounds 0 (by decide)⟩

/-- C2 — The capot deal of `test_capot_scoring` (player 0 holds all eight
Hearts, trump Hearts, contract player 0, starter 0, zero scores) cannot
yield 272: the searcher accumulates only card points and the +10 last-trick
bonus, never a +90 capot or +20 belote bonus, so its result is at most 162,
contradicting the test's asserted 272. -/
theorem c2_capot_not_272 :
    (solve ttInit [255, 65280, 16711680, 4278190080] 0 0 [] 0 0 0).1 ≤ 162 ∧
    (solve ttInit [255, 65280, 16711680, 4278190080] 0 0 [] 0 0 0).1 ≠ 272 := by
  have h := solve_le_bound 0
    (show LegalState [255, 65280, 16711680, 4278190080] [] 0 0 0 0 by decide)
  refine ⟨by linarith [h.2], ?_⟩
  intro he
  rw [he] at h
  norm_num at h

end Cointree
